import Mathlib

/-!
# Verification of the `g` minimal git client

A shallow embedding, in Lean 4, of the core of the `g` repository
(`base.py`, `lib.py`, `api.py`): the content-addressable object store,
the binary staging index, tree/commit graph walking, the pack-file
builder and the pkt-line wire codec, together with proofs of the
testable properties stated for them.

Modelling conventions:
* Python `bytes` and (ASCII) `str` values are both modelled as `List Nat`
  (one `Nat` per byte / code point); `.encode()` / `.decode()` are modelled
  at the byte level, so they are identities of the embedding.  String
  literals of the source are injected with `strB`.
* The SHA-1 hash (`hashlib.sha1`) and zlib compression
  (`zlib.compress` / `zlib.decompress`) are external libraries; they are
  modelled as function parameters, constrained only by the hypotheses the
  theorems state (digest length, compression round trip).
* The filesystem object store `objects/<id[0:2]>/<id[2:]>` is modelled as
  an association list from the 40-hex-char id to the stored (compressed)
  bytes.
* Python exceptions (`assert`, `ValueError`, unpack errors, …) are
  modelled by `Option` results: `none` is a raised exception.
* Loops that the source writes as `for _ in range(1000)` are modelled by
  structural recursion on exactly that fuel; unbounded `while` loops are
  modelled with enough fuel, which the theorems discharge.
-/

/-- Bytes (and ASCII strings) of the Python source: one `Nat` per byte. -/
abbrev Bytes := List Nat

/-- Inject a Lean string literal as the byte list of its code points
(used only for ASCII literals of the source). -/
def strB (s : String) : Bytes := s.toList.map Char.toNat

/-- Python slice `l[a:b]` (non-negative indices; clamps, empty when `b ≤ a`). -/
def pySlice (l : Bytes) (a b : Nat) : Bytes := (l.take b).drop a

/-- Python `l[a:]`. -/
def pyDrop (l : Bytes) (a : Nat) : Bytes := l.drop a

section Digits

/-- Fuel-driven worker for `natToBase`; the fuel bounds the recursion depth
(structural recursion so that the kernel can evaluate it). -/
def natToBaseAux (base : Nat) (conv : Nat → Nat) : Nat → Nat → Bytes
  | 0, n => [conv n]
  | fuel + 1, n =>
    if n < base ∨ base ≤ 1 then [conv n]
    else natToBaseAux base conv fuel (n / base) ++ [conv (n % base)]

/-- Digit-by-digit base conversion, most significant first: the common core
of Python `"{}".format`/`"{:o}".format`/`"{:x}".format`.  `conv` maps a
digit value to its byte. -/
def natToBase (base : Nat) (conv : Nat → Nat) (n : Nat) : Bytes :=
  natToBaseAux base conv n n

/-- Raw positional value of a digit string, `val` mapping byte to digit value. -/
def baseVal (base : Nat) (val : Nat → Nat) (l : Bytes) : Nat :=
  l.foldl (fun a d => a * base + val d) 0

theorem baseVal_append (base : Nat) (val : Nat → Nat) (l : Bytes) (d : Nat) :
    baseVal base val (l ++ [d]) = baseVal base val l * base + val d := by
  simp [baseVal]

theorem baseVal_natToBaseAux (base : Nat) (conv val : Nat → Nat)
    (hbase : 2 ≤ base) (hinv : ∀ d, d < base → val (conv d) = d) :
    ∀ fuel n, n ≤ fuel → baseVal base val (natToBaseAux base conv fuel n) = n := by
  intro fuel
  induction fuel with
  | zero =>
    intro n hn
    have hn0 : n = 0 := by omega
    subst hn0
    simp [natToBaseAux, baseVal, hinv 0 (by omega)]
  | succ fuel ih =>
    intro n hn
    rw [natToBaseAux]
    split
    · rename_i h
      rcases h with h | h
      · simp [baseVal, hinv n h]
      · omega
    · rename_i h
      push_neg at h
      have hrec : n / base ≤ fuel := by
        have hnpos : 0 < n := Nat.lt_of_lt_of_le (show 0 < base by omega) h.1
        have := Nat.div_lt_self hnpos (show 1 < base by omega)
        omega
      rw [baseVal_append, ih (n / base) hrec,
        hinv (n % base) (Nat.mod_lt _ (by omega)), Nat.mul_comm]
      exact Nat.div_add_mod n base

theorem baseVal_natToBase (base : Nat) (conv val : Nat → Nat)
    (hbase : 2 ≤ base) (hinv : ∀ d, d < base → val (conv d) = d) :
    ∀ n, baseVal base val (natToBase base conv n) = n := fun n =>
  baseVal_natToBaseAux base conv val hbase hinv n n (Nat.le_refl n)

theorem natToBaseAux_all (base : Nat) (conv : Nat → Nat) (P : Nat → Prop)
    (hP : ∀ d, d < base → P (conv d)) (hbase : 2 ≤ base) :
    ∀ fuel n, n ≤ fuel → ∀ b ∈ natToBaseAux base conv fuel n, P b := by
  intro fuel
  induction fuel with
  | zero =>
    intro n hn
    have hn0 : n = 0 := by omega
    subst hn0
    simp only [natToBaseAux, List.mem_singleton]
    rintro b rfl
    exact hP 0 (by omega)
  | succ fuel ih =>
    intro n hn
    rw [natToBaseAux]
    split
    · rename_i h
      rcases h with h | h
      · simp only [List.mem_singleton]
        rintro b rfl; exact hP n h
      · omega
    · rename_i h
      push_neg at h
      intro b hb
      have hrec : n / base ≤ fuel := by
        have hnpos : 0 < n := Nat.lt_of_lt_of_le (show 0 < base by omega) h.1
        have := Nat.div_lt_self hnpos (show 1 < base by omega)
        omega
      rcases List.mem_append.mp hb with hb | hb
      · exact ih (n / base) hrec b hb
      · simp only [List.mem_singleton] at hb
        subst hb
        exact hP _ (Nat.mod_lt _ (by omega))

theorem natToBase_all (base : Nat) (conv : Nat → Nat) (P : Nat → Prop)
    (hP : ∀ d, d < base → P (conv d)) (hbase : 2 ≤ base) :
    ∀ n, ∀ b ∈ natToBase base conv n, P b := fun n =>
  natToBaseAux_all base conv P hP hbase n n (Nat.le_refl n)

theorem natToBaseAux_ne_nil (base : Nat) (conv : Nat → Nat) (fuel n : Nat) :
    natToBaseAux base conv fuel n ≠ [] := by
  cases fuel with
  | zero => simp [natToBaseAux]
  | succ fuel =>
    rw [natToBaseAux]
    split
    · simp
    · simp

theorem natToBase_ne_nil (base : Nat) (conv : Nat → Nat) (n : Nat) :
    natToBase base conv n ≠ [] := natToBaseAux_ne_nil base conv n n

/-- Decimal digits of `n` as ASCII bytes: Python `"{}".format(n)` / `str(n)`. -/
def natToDecB (n : Nat) : Bytes := natToBase 10 (fun d => 48 + d) n

/-- Octal digits of `n` as ASCII bytes: Python `"{:o}".format(n)`. -/
def natToOctB (n : Nat) : Bytes := natToBase 8 (fun d => 48 + d) n

/-- One lowercase hex digit byte. -/
def hexDigitB (d : Nat) : Nat := if d < 10 then 48 + d else 87 + d

/-- Lowercase hex digits of `n` as ASCII bytes: Python `"{:x}".format(n)`. -/
def natToHexB (n : Nat) : Bytes := natToBase 16 hexDigitB n

/-- Is `b` an ASCII decimal digit? -/
def isDecDigit (b : Nat) : Bool := 48 ≤ b && b ≤ 57

/-- Is `b` an ASCII octal digit? -/
def isOctDigit (b : Nat) : Bool := 48 ≤ b && b ≤ 55

/-- Is `b` an ASCII hex digit (either case)? -/
def isHexDigit (b : Nat) : Bool :=
  (48 ≤ b && b ≤ 57) || (97 ≤ b && b ≤ 102) || (65 ≤ b && b ≤ 70)

/-- Value of a decimal digit byte. -/
def decVal (b : Nat) : Nat := b - 48

/-- Value of a hex digit byte (either case). -/
def hexVal (b : Nat) : Nat :=
  if b ≤ 57 then b - 48 else if 97 ≤ b then b - 87 else b - 55

/-- Python `int(s)` on a byte string (digits only; `none` models `ValueError`). -/
def parseDecB (l : Bytes) : Option Nat :=
  if l ≠ [] ∧ l.all isDecDigit then some (baseVal 10 decVal l) else none

/-- Python `int(s, 8)` on a byte string. -/
def parseOctB (l : Bytes) : Option Nat :=
  if l ≠ [] ∧ l.all isOctDigit then some (baseVal 8 decVal l) else none

/-- Python `int(s, 16)` on a byte string. -/
def parseHexB (l : Bytes) : Option Nat :=
  if l ≠ [] ∧ l.all isHexDigit then some (baseVal 16 hexVal l) else none

theorem parseDecB_natToDecB (n : Nat) : parseDecB (natToDecB n) = some n := by
  have hall : ∀ b ∈ natToDecB n, isDecDigit b = true := by
    refine natToBase_all 10 _ (fun b => isDecDigit b = true) ?_ (by omega) n
    intro d hd
    simp only [isDecDigit, Bool.and_eq_true, decide_eq_true_eq]
    omega
  rw [parseDecB, if_pos ⟨natToBase_ne_nil _ _ _, List.all_eq_true.mpr hall⟩,
    natToDecB, baseVal_natToBase 10 _ decVal (by omega)
      (fun d hd => by simp only [decVal]; omega)]

theorem parseOctB_natToOctB (n : Nat) : parseOctB (natToOctB n) = some n := by
  have hall : ∀ b ∈ natToOctB n, isOctDigit b = true := by
    refine natToBase_all 8 _ (fun b => isOctDigit b = true) ?_ (by omega) n
    intro d hd
    simp only [isOctDigit, Bool.and_eq_true, decide_eq_true_eq]
    omega
  rw [parseOctB, if_pos ⟨natToBase_ne_nil _ _ _, List.all_eq_true.mpr hall⟩,
    natToOctB, baseVal_natToBase 8 _ decVal (by omega)
      (fun d hd => by simp only [decVal]; omega)]

theorem hexVal_hexDigitB (d : Nat) (hd : d < 16) : hexVal (hexDigitB d) = d := by
  simp only [hexDigitB, hexVal]
  split_ifs <;> omega

theorem isHexDigit_hexDigitB (d : Nat) (hd : d < 16) : isHexDigit (hexDigitB d) = true := by
  simp only [hexDigitB, isHexDigit, Bool.or_eq_true, Bool.and_eq_true, decide_eq_true_eq]
  split_ifs <;> omega

theorem natToDecB_pos (n : Nat) : ∀ b ∈ natToDecB n, 0 < b := by
  refine natToBase_all 10 _ (fun b => 0 < b) ?_ (by omega) n
  intro d hd; omega

theorem natToDecB_not_ws (n : Nat) :
    ∀ b ∈ natToDecB n, ¬(b = 9 ∨ b = 10 ∨ b = 11 ∨ b = 12 ∨ b = 13 ∨ b = 32) := by
  refine natToBase_all 10 _ _ ?_ (by omega) n
  intro d hd; omega

end Digits

section ByteOps

/-- Python `bytes`/`str` whitespace (the characters `str.split()` splits on,
restricted to the ASCII range that occurs in this program). -/
def isWSB (b : Nat) : Bool :=
  b == 9 || b == 10 || b == 11 || b == 12 || b == 13 || b == 32

/-- Accumulator worker for `pySplitWS`: `acc` holds the current word reversed. -/
def pySplitWSAux : Bytes → Bytes → List Bytes
  | [], acc => if acc = [] then [] else [acc.reverse]
  | b :: t, acc =>
    if isWSB b then
      if acc = [] then pySplitWSAux t [] else acc.reverse :: pySplitWSAux t []
    else pySplitWSAux t (b :: acc)

/-- Python `s.split()` with no argument: split on whitespace runs,
discarding empty pieces. -/
def pySplitWS (l : Bytes) : List Bytes := pySplitWSAux l []

theorem pySplitWSAux_wsfree (C : Bytes) (hC : ∀ b ∈ C, isWSB b = false) :
    ∀ r acc, pySplitWSAux (C ++ r) acc = pySplitWSAux r (C.reverse ++ acc) := by
  induction C with
  | nil => intro r acc; simp
  | cons c C ih =>
    intro r acc
    have hc : isWSB c = false := hC c (by simp)
    simp only [List.cons_append, pySplitWSAux, hc, Bool.false_eq_true, if_false,
      List.append_eq]
    rw [ih (fun b hb => hC b (by simp [hb])) r (c :: acc)]
    simp

theorem pySplitWS_word (C : Bytes) (hne : C ≠ []) (hC : ∀ b ∈ C, isWSB b = false) :
    pySplitWS C = [C] := by
  have := pySplitWSAux_wsfree C hC [] []
  simp only [List.append_nil] at this
  rw [pySplitWS, this, pySplitWSAux]
  simp [hne]

theorem pySplitWS_two (A B : Bytes) (hA : A ≠ []) (hB : B ≠ [])
    (hAf : ∀ b ∈ A, isWSB b = false) (hBf : ∀ b ∈ B, isWSB b = false) :
    pySplitWS (A ++ 32 :: B) = [A, B] := by
  rw [pySplitWS, pySplitWSAux_wsfree A hAf (32 :: B) []]
  have h32 : isWSB 32 = true := by decide
  simp only [pySplitWSAux, h32, if_true, List.append_nil]
  rw [if_neg (by simpa using hA)]
  have := pySplitWSAux_wsfree B hBf [] []
  simp only [List.append_nil] at this
  rw [this, pySplitWSAux]
  simp [hB]

/-- Python `data.find(t, i)` / `data.index(t, i)`: position of the first
occurrence of byte `t` in `data` at or after `i` (`none` for "not found"). -/
def findFrom (data : Bytes) (t i : Nat) : Option Nat :=
  (List.findIdx? (fun b => b == t) (data.drop i)).map (· + i)

theorem findIdx?_append_stop {p : Nat → Bool} (A : Bytes) (s : Nat) (B : Bytes)
    (hA : ∀ b ∈ A, p b = false) (hs : p s = true) :
    ∀ i, List.findIdx? p (A ++ s :: B) i = some (A.length + i) := by
  induction A with
  | nil => intro i; simp [List.findIdx?_cons, hs]
  | cons a A ih =>
    intro i
    have ha : p a = false := hA a (by simp)
    simp only [List.cons_append, List.findIdx?_cons, ha, Bool.false_eq_true, if_false]
    rw [ih (fun b hb => hA b (by simp [hb])) (i + 1)]
    simp only [List.length_cons, Option.some.injEq]
    omega

theorem findIdx?_all_neg {p : Nat → Bool} (A : Bytes) (hA : ∀ b ∈ A, p b = false) :
    ∀ i, List.findIdx? p A i = none := by
  induction A with
  | nil => intro i; simp
  | cons a A ih =>
    intro i
    have ha : p a = false := hA a (by simp)
    simp only [List.findIdx?_cons, ha, Bool.false_eq_true, if_false]
    exact ih (fun b hb => hA b (by simp [hb])) (i + 1)

theorem findFrom_split (D : Bytes) (i : Nat) (A B : Bytes)
    (hD : D.drop i = A ++ 0 :: B) (hA : ∀ b ∈ A, b ≠ 0) :
    findFrom D 0 i = some (i + A.length) := by
  rw [findFrom, hD, findIdx?_append_stop A 0 B
    (fun b hb => by simpa using hA b hb) (by simp)]
  simp [Nat.add_comm]

theorem findFrom_none (D : Bytes) (i : Nat)
    (hA : ∀ b ∈ D.drop i, b ≠ 0) :
    findFrom D 0 i = none := by
  rw [findFrom, findIdx?_all_neg _ (fun b hb => by simpa using hA b hb)]
  rfl

/-- `k`-byte big-endian encoding of `n` (`struct.pack` `"!L"`/`"!H"` body). -/
def toBE : Nat → Nat → Bytes
  | 0, _ => []
  | k + 1, n => toBE k (n / 256) ++ [n % 256]

/-- Big-endian value of a byte string (`struct.unpack` `"!L"`/`"!H"` body). -/
def fromBE (l : Bytes) : Nat := baseVal 256 id l

theorem length_toBE (k n : Nat) : (toBE k n).length = k := by
  induction k generalizing n with
  | zero => rfl
  | succ k ih => simp [toBE, ih]

theorem fromBE_toBE (k n : Nat) (h : n < 256 ^ k) : fromBE (toBE k n) = n := by
  induction k generalizing n with
  | zero =>
    simp only [Nat.pow_zero, Nat.lt_one_iff] at h
    simp [toBE, fromBE, baseVal, h]
  | succ k ih =>
    have hdiv : n / 256 < 256 ^ k := by
      rw [Nat.div_lt_iff_lt_mul (by omega)]
      calc n < 256 ^ (k + 1) := h
        _ = 256 ^ k * 256 := by rw [Nat.pow_succ]
    show baseVal 256 id (toBE k (n / 256) ++ [n % 256]) = n
    rw [baseVal_append]
    have := ih (n / 256) hdiv
    rw [fromBE] at this
    rw [this]
    simp only [id]
    omega

/-- Python `bytes.hex()`: two lowercase hex digits per byte. -/
def bytesToHexB (l : Bytes) : Bytes :=
  l.flatMap (fun b => [hexDigitB (b / 16), hexDigitB (b % 16)])

theorem natToBaseAux_length_le (base : Nat) (conv : Nat → Nat) (hbase : 2 ≤ base) :
    ∀ fuel n k, n ≤ fuel → 1 ≤ k → n < base ^ k →
      (natToBaseAux base conv fuel n).length ≤ k := by
  intro fuel
  induction fuel with
  | zero =>
    intro n k hn hk hnk
    have hn0 : n = 0 := by omega
    subst hn0
    simp only [natToBaseAux, List.length_singleton]
    omega
  | succ fuel ih =>
    intro n k hn hk hnk
    rw [natToBaseAux]
    split
    · simp only [List.length_singleton]
      omega
    · rename_i h
      push_neg at h
      cases k with
      | zero => omega
      | succ k =>
        have hk1 : 1 ≤ k := by
          by_contra hk0
          have hke : k = 0 := by omega
          subst hke
          have hb1 : base ^ (0 + 1) = base := by simp
          omega
        have hdiv : n / base < base ^ k := by
          rw [Nat.div_lt_iff_lt_mul (by omega)]
          calc n < base ^ (k + 1) := hnk
            _ = base ^ k * base := by rw [Nat.pow_succ]
        have hrec : n / base ≤ fuel := by
          have hnpos : 0 < n := Nat.lt_of_lt_of_le (show 0 < base by omega) h.1
          have := Nat.div_lt_self hnpos (show 1 < base by omega)
          omega
        simp only [List.length_append, List.length_singleton]
        have := ih (n / base) k hrec hk1 hdiv
        omega

theorem natToBase_length_le (base : Nat) (conv : Nat → Nat) (k : Nat)
    (hbase : 2 ≤ base) (hk : 1 ≤ k) :
    ∀ n, n < base ^ k → (natToBase base conv n).length ≤ k := fun n hn =>
  natToBaseAux_length_le base conv hbase n n k (Nat.le_refl n) hk hn

/-- Python `'{:04x}'.format(n).encode()`: lowercase hex, left-padded with
`'0'` to at least four digits (longer when `n ≥ 0x10000`). -/
def hex4B (n : Nat) : Bytes :=
  List.replicate (4 - (natToHexB n).length) 48 ++ natToHexB n

theorem baseVal_append_full (base : Nat) (val : Nat → Nat) (A B : Bytes) :
    baseVal base val (A ++ B) = baseVal base val A * base ^ B.length + baseVal base val B := by
  induction B using List.reverseRecOn with
  | nil => simp [baseVal]
  | append_singleton B d ih =>
    rw [← List.append_assoc, baseVal_append, baseVal_append, ih,
      List.length_append, List.length_singleton]
    ring

theorem baseVal_replicate_zero (base : Nat) (val : Nat → Nat) (k z : Nat) (hz : val z = 0) :
    baseVal base val (List.replicate k z) = 0 := by
  induction k with
  | zero => rfl
  | succ k ih =>
    rw [List.replicate_succ', baseVal_append, ih, hz]
    simp

theorem length_hex4B (n : Nat) (h : n < 65536) : (hex4B n).length = 4 := by
  have hle : (natToHexB n).length ≤ 4 :=
    natToBase_length_le 16 hexDigitB 4 (by omega) (by omega) n (by omega)
  simp only [hex4B, List.length_append, List.length_replicate]
  omega

theorem parseHexB_hex4B (n : Nat) (h : n < 65536) : parseHexB (hex4B n) = some n := by
  have hall : ∀ b ∈ natToHexB n, isHexDigit b = true := by
    refine natToBase_all 16 _ (fun b => isHexDigit b = true) ?_ (by omega) n
    exact isHexDigit_hexDigitB
  have hallfull : ∀ b ∈ hex4B n, isHexDigit b = true := by
    intro b hb
    rcases List.mem_append.mp hb with hb | hb
    · have := List.eq_of_mem_replicate hb
      subst this
      decide
    · exact hall b hb
  have hne : hex4B n ≠ [] := by
    simp only [hex4B]
    intro hcon
    exact natToBase_ne_nil 16 hexDigitB n (List.append_eq_nil.mp hcon).2
  rw [parseHexB, if_pos ⟨hne, List.all_eq_true.mpr hallfull⟩, hex4B,
    baseVal_append_full, baseVal_replicate_zero 16 hexVal _ 48 (by decide)]
  have : baseVal 16 hexVal (natToHexB n) = n :=
    baseVal_natToBase 16 hexDigitB hexVal (by omega) hexVal_hexDigitB n
  rw [this]
  ring

end ByteOps

section ObjectStore

/-- The external libraries the source calls (`hashlib.sha1`, `zlib`).
They are parameters of the embedding; theorems state exactly the
assumptions they need about them. -/
structure ExtLib where
  /-- `hashlib.sha1(data).hexdigest()` as ASCII bytes. -/
  sha1hex : Bytes → Bytes
  /-- `hashlib.sha1(data).digest()`: the raw 20-byte digest. -/
  sha1raw : Bytes → Bytes
  /-- `zlib.compress`. -/
  zcomp : Bytes → Bytes
  /-- `zlib.decompress`. -/
  zdecomp : Bytes → Bytes

/-- The on-disk object store `objects/<id[0:2]>/<id[2:]>`, modelled as an
association list from the full 40-hex-char object id to the stored
(compressed) file content. -/
abbrev GitStore := List (Bytes × Bytes)

/-- The four object kinds (the `HashObject` subclasses of `base.py`). -/
inductive ObjKind | blob | tree | commit | tag
deriving DecidableEq

/-- The subclass `TYPE` constant. -/
def ObjKind.TYPE : ObjKind → Bytes
  | .blob => strB "blob"
  | .tree => strB "tree"
  | .commit => strB "commit"
  | .tag => strB "tag"

theorem ObjKind.TYPE_wf (k : ObjKind) :
    k.TYPE ≠ [] ∧ ∀ b ∈ k.TYPE, b ≠ 0 ∧ isWSB b = false := by
  cases k <;> decide

/-- `os.path.exists` on an object path: is the id a key of the store? -/
def storeHasId (s : GitStore) (id : Bytes) : Bool := s.any (fun kv => kv.1 == id)

theorem storeHasId_cons_self (id v : Bytes) (s : GitStore) :
    storeHasId ((id, v) :: s) id = true := by
  simp [storeHasId]

/-- `HashObject._build_head`: `f"{object_type} {data_length}\x00".encode()`. -/
def buildHead (t : Bytes) (n : Nat) : Bytes := t ++ [32] ++ natToDecB n ++ [0]

/-- `HashObject.compress` on bytes: hash `header ‖ payload`, skip the write
when the object path already exists, else write the compressed bytes;
return the hex id (and the updated store). -/
def compress (E : ExtLib) (T : Bytes) (data : Bytes) (s : GitStore) : Bytes × GitStore :=
  let full_data := buildHead T data.length ++ data
  let sha1 := E.sha1hex full_data
  if storeHasId s sha1 then (sha1, s)
  else (sha1, (sha1, E.zcomp full_data) :: s)

/-- `HashObject.find_object`: resolve a (possibly abbreviated) id by listing
the 2-char shard directory and prefix-matching; errors (`none`) on a short
id, no match, or ≥ 2 matches.  Returns the stored file content. -/
def findObject (s : GitStore) (sha1 : Bytes) : Option Bytes :=
  if sha1.length < 2 then none
  else
    match s.filter (fun kv =>
        kv.1.take 2 == sha1.take 2 && (sha1.drop 2).isPrefixOf (kv.1.drop 2)) with
    | [kv] => some kv.2
    | _ => none

/-- `HashObject.decompress`: find the object, decompress it, split the
header at the first NUL, check the declared size and type, return the
payload.  Any assertion failure or parse error is `none`. -/
def decompressK (E : ExtLib) (T : Bytes) (s : GitStore) (sha1 : Bytes) : Option Bytes := do
  let stored ← findObject s sha1
  let full_data := E.zdecomp stored
  let nul_index ← findFrom full_data 0 0
  let header := pySlice full_data 0 nul_index
  match pySplitWS header with
  | [obj_type, size_str] => do
    let size ← parseDecB size_str
    let data := pyDrop full_data (nul_index + 1)
    if size = data.length ∧ obj_type = T then some data else none
  | _ => none

theorem filter_eq_key (s : GitStore) (id v : Bytes)
    (hmem : (id, v) ∈ s) (hnodup : (s.map Prod.fst).Nodup) :
    s.filter (fun kv => kv.1 == id) = [(id, v)] := by
  induction s with
  | nil => cases hmem
  | cons kv t ih =>
    simp only [List.map_cons, List.nodup_cons] at hnodup
    by_cases hk : kv.1 = id
    · have hrest : t.filter (fun kv => kv.1 == id) = [] := by
        rw [List.filter_eq_nil_iff]
        intro a ha
        simp only [beq_iff_eq]
        intro hcon
        have : kv.1 ∈ t.map Prod.fst := by
          rw [hk, ← hcon]
          exact List.mem_map_of_mem Prod.fst ha
        exact hnodup.1 this
      have hkv : kv = (id, v) := by
        rcases List.mem_cons.mp hmem with h | h
        · exact h.symm
        · have : kv.1 ∈ t.map Prod.fst := by
            rw [hk]
            exact List.mem_map_of_mem Prod.fst h
          exact absurd this hnodup.1
      rw [List.filter_cons, if_pos (by simp [hk]), hrest, hkv]
    · have hmem' : (id, v) ∈ t := by
        rcases List.mem_cons.mp hmem with h | h
        · exact absurd (congrArg Prod.fst h.symm) hk
        · exact h
      rw [List.filter_cons, if_neg (by simp [hk]), ih hmem' hnodup.2]

theorem findObject_full_id (s : GitStore) (id v : Bytes)
    (hmem : (id, v) ∈ s) (hnodup : (s.map Prod.fst).Nodup)
    (hlen : ∀ kv ∈ s, (kv.1 : Bytes).length = 40) (hid : id.length = 40) :
    findObject s id = some v := by
  rw [findObject, if_neg (by omega)]
  have hcongr : s.filter (fun kv =>
      kv.1.take 2 == id.take 2 && (id.drop 2).isPrefixOf (kv.1.drop 2)) =
      s.filter (fun kv => kv.1 == id) := by
    apply List.filter_congr
    intro kv hkv
    have hkl : kv.1.length = 40 := hlen kv hkv
    rw [Bool.eq_iff_iff]
    simp only [Bool.and_eq_true, beq_iff_eq]
    constructor
    · rintro ⟨h2, hpre⟩
      have hpre' : id.drop 2 <+: kv.1.drop 2 := List.isPrefixOf_iff_prefix.mp hpre
      have hdrop : id.drop 2 = kv.1.drop 2 :=
        hpre'.eq_of_length (by simp [hkl, hid])
      calc kv.1 = kv.1.take 2 ++ kv.1.drop 2 := (List.take_append_drop 2 kv.1).symm
        _ = id.take 2 ++ id.drop 2 := by rw [h2, hdrop]
        _ = id := List.take_append_drop 2 id
    · intro h
      rw [h]
      exact ⟨rfl, List.isPrefixOf_iff_prefix.mpr (List.prefix_refl _)⟩
  rw [hcongr, filter_eq_key s id v hmem hnodup]

theorem decompress_parse (E : ExtLib) (k : ObjKind) (p : Bytes) (s : GitStore) (id : Bytes)
    (hfind : findObject s id = some (E.zcomp (buildHead k.TYPE p.length ++ p)))
    (hz : ∀ b, E.zdecomp (E.zcomp b) = b) :
    decompressK E k.TYPE s id = some p := by
  obtain ⟨hTne, hTb⟩ := ObjKind.TYPE_wf k
  set T := k.TYPE with hT
  set A := T ++ [32] ++ natToDecB p.length with hA
  have hfull : buildHead T p.length ++ p = A ++ 0 :: p := by
    simp [hA, buildHead]
  have hAne : ∀ b ∈ A, b ≠ 0 := by
    intro b hb
    rw [hA] at hb
    rcases List.mem_append.mp hb with hb | hb
    · rcases List.mem_append.mp hb with hb | hb
      · exact (hTb b hb).1
      · simp only [List.mem_singleton] at hb; omega
    · have := natToDecB_pos p.length b hb; omega
  rw [decompressK, hfind]
  simp only [Option.bind_eq_bind, Option.some_bind, hz, hfull]
  have hnul : findFrom (A ++ 0 :: p) 0 0 = some (0 + A.length) :=
    findFrom_split _ 0 A p (by simp) hAne
  rw [hnul]
  simp only [Option.some_bind, Nat.zero_add]
  have hheader : pySlice (A ++ 0 :: p) 0 A.length = A := by
    rw [pySlice, List.take_left' rfl, List.drop_zero]
  rw [hheader]
  have hsplit : pySplitWS A = [T, natToDecB p.length] := by
    have : A = T ++ 32 :: natToDecB p.length := by simp [hA]
    rw [this]
    exact pySplitWS_two T (natToDecB p.length) hTne
      (natToBase_ne_nil _ _ _)
      (fun b hb => (hTb b hb).2)
      (fun b hb => by
        have hb6 := natToDecB_not_ws p.length b hb
        rw [Bool.eq_false_iff]
        intro hw
        exact hb6 (by simpa [isWSB, or_assoc] using hw))
  rw [hsplit]
  simp only [parseDecB_natToDecB, Option.some_bind]
  have hdata : pyDrop (A ++ 0 :: p) (A.length + 1) = p := by
    have : A ++ 0 :: p = (A ++ [0]) ++ p := by simp
    rw [pyDrop, this, List.drop_left' (by simp)]
  rw [hdata]
  simp

/-- C1 — Object-store round trip: storing payload `p` with kind `k` via
`compress` and reading the returned 40-hex id back with `decompress` under
the same kind returns exactly `p`.  Hypotheses: zlib round-trips, every
store entry was produced by `compress` (40-char keys, no duplicate keys),
the digest of the new object is 40 chars, and no stored preimage collides
with the new object's digest. -/
theorem objectstore_get_put_roundtrip (E : ExtLib) (k : ObjKind) (p : Bytes) (s : GitStore)
    (hz : ∀ b, E.zdecomp (E.zcomp b) = b)
    (hwf : ∀ kv ∈ s, ∃ d, kv = (E.sha1hex d, E.zcomp d))
    (hlen : ∀ kv ∈ s, (kv.1 : Bytes).length = 40)
    (hnodup : (s.map Prod.fst).Nodup)
    (hhlen : (E.sha1hex (buildHead k.TYPE p.length ++ p)).length = 40)
    (hcoll : ∀ d, E.sha1hex d = E.sha1hex (buildHead k.TYPE p.length ++ p) →
      d = buildHead k.TYPE p.length ++ p) :
    decompressK E k.TYPE (compress E k.TYPE p s).2 (compress E k.TYPE p s).1 = some p := by
  set F := buildHead k.TYPE p.length ++ p with hF
  set id := E.sha1hex F with hid
  by_cases hhas : storeHasId s id = true
  · have hc : compress E k.TYPE p s = (id, s) := by
      simp only [compress, ← hF, ← hid, hhas, if_true]
    rw [hc]
    obtain ⟨kv, hkvmem, hkveq⟩ : ∃ kv ∈ s, kv.1 = id := by
      rw [storeHasId, List.any_eq_true] at hhas
      obtain ⟨kv, hkv, heq⟩ := hhas
      exact ⟨kv, hkv, by simpa using heq⟩
    obtain ⟨d, hd⟩ := hwf kv hkvmem
    have hEd : E.sha1hex d = id := by
      rw [← hkveq, hd]
    have hdF : d = F := hcoll d (by rw [hEd, hid])
    have hmem : (id, E.zcomp F) ∈ s := by
      have hkv2 : kv = (id, E.zcomp F) := by
        rw [hd, hEd, hdF]
      exact hkv2 ▸ hkvmem
    exact decompress_parse E k p s id
      (findObject_full_id s id (E.zcomp F) hmem hnodup hlen hhlen) hz
  · have hfalse : storeHasId s id = false := by
      revert hhas
      cases storeHasId s id <;> simp
    have hc : compress E k.TYPE p s = (id, (id, E.zcomp F) :: s) := by
      simp only [compress, ← hF, ← hid, hfalse, Bool.false_eq_true, if_false]
    rw [hc]
    refine decompress_parse E k p _ id
      (findObject_full_id _ id (E.zcomp F) (List.mem_cons_self _ _) ?_ ?_ hhlen) hz
    · simp only [List.map_cons, List.nodup_cons]
      refine ⟨?_, hnodup⟩
      intro hcon
      rw [List.mem_map] at hcon
      obtain ⟨kv, hkv, hkeq⟩ := hcon
      have htrue : storeHasId s id = true := by
        rw [storeHasId, List.any_eq_true]
        exact ⟨kv, hkv, beq_iff_eq.mpr hkeq⟩
      rw [hfalse] at htrue
      cases htrue
    · intro kv hkv
      rcases List.mem_cons.mp hkv with h | h
      · rw [h]
        exact hhlen
      · exact hlen kv h

/-- A concrete stand-in hash for witnesses: constant except at the one
value that gets hashed. -/
def hashStub : Bytes → Bytes := fun d =>
  if d = buildHead ObjKind.blob.TYPE 1 ++ [7] then List.replicate 40 97
  else List.replicate 40 98

/-- A concrete external-library instance for witnesses: stub hash,
identity compression. -/
def extStub : ExtLib := ⟨hashStub, id, id, id⟩

/-- Witness for C1 at a concrete input: empty store, identity zlib, and a
hash that is constant except at the one hashed value. -/
theorem objectstore_get_put_roundtrip_witness :
    decompressK extStub ObjKind.blob.TYPE
      (compress extStub ObjKind.blob.TYPE [7] []).2
      (compress extStub ObjKind.blob.TYPE [7] []).1 = some [7] := by
  apply objectstore_get_put_roundtrip
  · intro b; rfl
  · intro kv hkv; cases hkv
  · intro kv hkv; cases hkv
  · simp
  · decide
  · intro d hd
    by_cases hc : d = buildHead ObjKind.blob.TYPE 1 ++ [7]
    · exact hc
    · exfalso
      have hd2 : hashStub d = hashStub (buildHead ObjKind.blob.TYPE [7].length ++ [7]) := hd
      simp only [hashStub] at hd2
      rw [if_neg hc, if_pos (by decide)] at hd2
      exact absurd hd2 (by decide)

/-- C7 — `put` is idempotent: a second `compress` of the same kind and
payload returns the same id and leaves the store exactly as it was (the
existing object path makes the write a no-op). -/
theorem objectstore_put_idempotent (E : ExtLib) (T data : Bytes) (s : GitStore) :
    compress E T data (compress E T data s).2 = compress E T data s := by
  by_cases h : storeHasId s (E.sha1hex (buildHead T data.length ++ data)) = true
  · simp only [compress, h, if_true]
  · have hf : storeHasId s (E.sha1hex (buildHead T data.length ++ data)) = false := by
      revert h
      cases storeHasId s (E.sha1hex (buildHead T data.length ++ data)) <;> simp
    simp only [compress, hf, Bool.false_eq_true, if_false, storeHasId_cons_self, if_true]

end ObjectStore

section PushCredentials

/-- `lib.GIT_SUFFIX`. -/
def GIT_SUFFIX : String := "/info/refs?service=git-receive-pack"

/-- `lib.G_GITHUB_REPO`: the hard-coded repository URL. -/
def G_GITHUB_REPO : String := "https://github.com/zhouzhaoxin/g.git"

/-- `lib.USERNAME`: the process-wide credential constant. -/
def USERNAME : String := "###"

/-- `lib.PASSWORD`: the process-wide credential constant. -/
def PASSWORD : String := "###"

/-- The `(url, username, password)` triples `api.push` hands to
`http_request` for its two transport calls (the `info/refs` GET inside
`get_remote_master_hash`, and the `git-receive-pack` POST), as a function
of `push`'s parameters.  Translated from `api.push`: the function body
immediately rebinds `username`, `password` and `git_url` to the `lib`
module constants before either request is made. -/
def pushTransportArgs (git_url username password : Option String) :
    (String × String × String) × (String × String × String) :=
  let username := USERNAME
  let password := PASSWORD
  let git_url := G_GITHUB_REPO
  ((git_url ++ GIT_SUFFIX, username, password),
   (git_url ++ "/git-receive-pack", username, password))

/-- C8, counterexample — two calls of `push` with entirely different
caller-supplied url/username/password produce identical transport requests:
the outgoing requests are independent of `push`'s arguments, refuting the
claim that they use exactly the caller-supplied values. -/
theorem push_ignores_caller_credentials :
    pushTransportArgs (some "http://left.example/a.git") (some "alice") (some "secret-a") =
      pushTransportArgs (some "http://right.example/b.git") (some "bob") (some "secret-b") := rfl

/-- C8, amended — `push` ignores its `git_url`/`username`/`password`
parameters: both transport requests always use the module constants
`lib.G_GITHUB_REPO`, `lib.USERNAME` and `lib.PASSWORD`. -/
theorem push_uses_module_constants (git_url username password : Option String) :
    pushTransportArgs git_url username password =
      ((G_GITHUB_REPO ++ GIT_SUFFIX, USERNAME, PASSWORD),
       (G_GITHUB_REPO ++ "/git-receive-pack", USERNAME, PASSWORD)) := rfl

end PushCredentials

section StatusInit

/-- Split a byte string on a separator byte, keeping empty pieces
(worker for `pySplitlinesB`). -/
def splitByte (sep : Nat) : Bytes → List Bytes
  | [] => [[]]
  | b :: t =>
    let r := splitByte sep t
    if b == sep then [] :: r
    else
      match r with
      | [] => [[b]]
      | w :: ws => (b :: w) :: ws

/-- Python `s.splitlines()` for `\n`-separated text: split on newline,
no trailing empty piece. -/
def pySplitlinesB (l : Bytes) : List Bytes :=
  let p := splitByte 10 l
  if p.getLast? = some [] then p.dropLast else p

/-- The dynamically typed value `Status.__init__` leaves in `self.ignore`
just before the final `-=`: a Python `set` when `.gitignore` existed, the
Python list `[]` otherwise. -/
inductive IgnoreVal
  | pyset (s : Finset Bytes)
  | pylist (l : List Bytes)

/-- Python `x -= pattern` where `pattern` is a `set`: set difference when
`x` is a `set`; a `TypeError` when `x` is a `list` (a list has no `-` with
a set). -/
def pyISubSet : IgnoreVal → Finset Bytes → Except String (Finset Bytes)
  | .pyset s, t => .ok (s \ t)
  | .pylist _, _ =>
    .error "TypeError: unsupported operand type(s) for -=: 'list' and 'set'"

/-- The ignore-file line prefix the source looks for (`" patten "`). -/
def PATTEN_PREFIX : Bytes := strB " patten "

/-- `.gitignore`, the ignore file's own name. -/
def GITIGNORE_NAME : Bytes := strB ".gitignore"

/-- `Status.__init__`'s ignore-set computation: `gitignore` is the ignore
file's content when the file exists.  When it exists, `self.ignore` is the
set of its lines plus `".gitignore"` and `self.ignore_pattern` collects the
`" patten "`-prefixed lines (stripped); when it does not, `self.ignore` is
the list `[]`.  Either way the constructor then runs
`self.ignore -= self.ignore_pattern`.  Returns `(ignore, ignore_pattern)`
or the raised error. -/
def statusInitIgnore (gitignore : Option Bytes) :
    Except String (Finset Bytes × Finset Bytes) :=
  match gitignore with
  | some contents =>
    let lines : Finset Bytes := (pySplitlinesB contents).toFinset
    let ignore_pattern : Finset Bytes :=
      (lines.filter (fun item => PATTEN_PREFIX.isPrefixOf item = true)).image
        (fun item => item.drop 8)
    let ignore : IgnoreVal := .pyset (insert GITIGNORE_NAME lines)
    (pyISubSet ignore ignore_pattern).map (fun ig => (ig, ignore_pattern))
  | none =>
    let ignore_pattern : Finset Bytes := ∅
    let ignore : IgnoreVal := .pylist []
    (pyISubSet ignore ignore_pattern).map (fun ig => (ig, ignore_pattern))

/-- C9 — with no `.gitignore` in the working tree, constructing `Status`
(hence every `status()` / `diff()` call) raises a `TypeError` before any
comparison runs, because the ignore collection is a list and a set is
subtracted from it; with a `.gitignore` present the constructor succeeds,
so the specified status behaviour is reachable only in that case. -/
theorem status_init_requires_gitignore :
    statusInitIgnore none =
        Except.error "TypeError: unsupported operand type(s) for -=: 'list' and 'set'" ∧
      ∀ contents, ∃ v, statusInitIgnore (some contents) = Except.ok v := by
  refine ⟨rfl, ?_⟩
  intro contents
  exact ⟨_, rfl⟩

end StatusInit

section PktLine

theorem pySlice_shift (A B : Bytes) (a b : Nat) :
    pySlice (A ++ B) (A.length + a) (A.length + b) = pySlice B a b := by
  rw [pySlice, pySlice, List.take_append, List.drop_append]

theorem pySlice_append_take (A B : Bytes) (k : Nat) :
    pySlice (A ++ B) A.length (A.length + k) = B.take k := by
  have := pySlice_shift A B 0 k
  rw [Nat.add_zero] at this
  rw [this, pySlice, List.drop_zero]

theorem pySlice_stop_le (l : Bytes) (a b : Nat) (h : b ≤ a) : pySlice l a b = [] := by
  rw [pySlice, List.drop_eq_nil_iff]
  calc (l.take b).length ≤ b := List.length_take_le b l
    _ ≤ a := h

/-- `lib.build_lines_data`: for each line a 4-hex-digit length
(`len(line)+5`), the line, a newline; then the flush marker `"0000"`. -/
def buildLinesData (lines : List Bytes) : Bytes :=
  (lines.flatMap (fun line => hex4B (line.length + 5) ++ line ++ [10])) ++ strB "0000"

/-- The `for _ in range(1000)` loop of `lib.extract_lines`: read 4 hex
digits as a length, slice the line, advance (by 4 on a flush marker, by the
length otherwise), stop when the cursor reaches the end of the input or the
1000 iterations run out.  Returns the lines and the final cursor; `none`
models the `ValueError` of `int()` on a malformed length. -/
def extractLinesLoop (data : Bytes) : Nat → Nat → List Bytes → Option (List Bytes × Nat)
  | 0, i, acc => some (acc, i)
  | fuel + 1, i, acc =>
    (parseHexB (pySlice data i (i + 4))).bind (fun line_length =>
      if (if line_length = 0 then i + 4 else i + line_length) ≥ data.length then
        some (acc ++ [pySlice data (i + 4) (i + line_length)],
          if line_length = 0 then i + 4 else i + line_length)
      else
        extractLinesLoop data fuel (if line_length = 0 then i + 4 else i + line_length)
          (acc ++ [pySlice data (i + 4) (i + line_length)]))

/-- `lib.extract_lines`. -/
def extractLines (data : Bytes) : Option (List Bytes) :=
  (extractLinesLoop data 1000 0 []).map (fun r => r.1)

theorem buildLinesData_nil_tail (ls : List Bytes) :
    4 ≤ (buildLinesData ls).length := by
  rw [buildLinesData, List.length_append]
  have : (strB "0000").length = 4 := by decide
  omega

theorem extractLinesLoop_encoded (ls : List Bytes) :
    ∀ (done : Bytes) (acc : List Bytes) (fuel : Nat),
      (∀ l ∈ ls, l.length + 5 < 65536) → ls.length < fuel →
      extractLinesLoop (done ++ buildLinesData ls) fuel done.length acc =
        some (acc ++ ls.map (fun l => l ++ [10]) ++ [[]],
          done.length + (buildLinesData ls).length) := by
  induction ls with
  | nil =>
    intro done acc fuel hlen hfuel
    cases fuel with
    | zero => omega
    | succ fuel =>
      rw [extractLinesLoop]
      have hslice : pySlice (done ++ buildLinesData []) done.length (done.length + 4) =
          strB "0000" := by
        rw [pySlice_append_take]
        decide
      have hparse : parseHexB (strB "0000") = some 0 := by decide
      rw [hslice, hparse]
      have hbl : (buildLinesData []).length = 4 := by decide
      have hlen4 : (done ++ buildLinesData []).length = done.length + 4 := by
        rw [List.length_append, hbl]
      have hline : pySlice (done ++ buildLinesData []) (done.length + 4) done.length =
          [] := pySlice_stop_le _ _ _ (by omega)
      simp [hline, hlen4, hbl]
  | cons l ls ih =>
    intro done acc fuel hlen hfuel
    cases fuel with
    | zero => simp at hfuel
    | succ fuel =>
      have hl5 : l.length + 5 < 65536 := hlen l (by simp)
      have hrec : buildLinesData (l :: ls) =
          (hex4B (l.length + 5) ++ (l ++ [10])) ++ buildLinesData ls := by
        rw [buildLinesData, buildLinesData, List.flatMap_cons]
        simp [List.append_assoc]
      have hx4 : (hex4B (l.length + 5)).length = 4 := length_hex4B _ hl5
      rw [extractLinesLoop, hrec]
      have hslice : pySlice (done ++ ((hex4B (l.length + 5) ++ (l ++ [10])) ++
          buildLinesData ls)) done.length (done.length + 4) = hex4B (l.length + 5) := by
        rw [pySlice_append_take, List.append_assoc, List.take_left' hx4]
      rw [hslice, parseHexB_hex4B _ hl5]
      simp only [Option.some_bind]
      have hne : ¬(l.length + 5 = 0) := by omega
      simp only [if_neg hne]
      have hline : pySlice (done ++ ((hex4B (l.length + 5) ++ (l ++ [10])) ++
          buildLinesData ls)) (done.length + 4) (done.length + (l.length + 5)) =
          l ++ [10] := by
        have h1 : done.length + 4 = (done ++ hex4B (l.length + 5)).length + 0 := by
          rw [List.length_append, hx4]
        have h2 : done.length + (l.length + 5) =
            (done ++ hex4B (l.length + 5)).length + (l.length + 1) := by
          rw [List.length_append, hx4]
          omega
        have h3 : done ++ ((hex4B (l.length + 5) ++ (l ++ [10])) ++ buildLinesData ls) =
            (done ++ hex4B (l.length + 5)) ++ ((l ++ [10]) ++ buildLinesData ls) := by
          simp [List.append_assoc]
        rw [h3, h1, h2, pySlice_shift, pySlice, List.drop_zero,
          List.take_left' (by simp)]
      rw [hline]
      have hlentot : (done ++ ((hex4B (l.length + 5) ++ (l ++ [10])) ++
          buildLinesData ls)).length =
          done.length + (l.length + 5) + (buildLinesData ls).length := by
        simp only [List.length_append, hx4, List.length_cons, List.length_nil]
        omega
      have hstop : ¬(done.length + (l.length + 5) ≥
          (done ++ ((hex4B (l.length + 5) ++ (l ++ [10])) ++ buildLinesData ls)).length) := by
        rw [hlentot]
        have := buildLinesData_nil_tail ls
        omega
      rw [if_neg hstop]
      have hdone2 : done.length + (l.length + 5) =
          (done ++ (hex4B (l.length + 5) ++ (l ++ [10]))).length := by
        simp only [List.length_append, hx4, List.length_cons, List.length_nil]
        omega
      have hdata2 : done ++ ((hex4B (l.length + 5) ++ (l ++ [10])) ++ buildLinesData ls) =
          (done ++ (hex4B (l.length + 5) ++ (l ++ [10]))) ++ buildLinesData ls := by
        simp [List.append_assoc]
      rw [hdone2, hdata2, ih _ (acc ++ [l ++ [10]]) fuel (fun x hx => hlen x (by simp [hx]))
        (by simpa using hfuel)]
      have hfin : ((done ++ (hex4B (l.length + 5) ++ (l ++ [10]))).length +
          (buildLinesData ls).length) =
          done.length + ((hex4B (l.length + 5) ++ (l ++ [10])) ++
            buildLinesData ls).length := by
        simp only [List.length_append]
        omega
      rw [hfin]
      simp [List.append_assoc]

/-- C3, counterexample — pkt-line decode does not invert encode: the single
line `b"abc"` comes back with its framing newline attached, plus an empty
line recorded for the flush marker. -/
theorem pktline_roundtrip_fails :
    extractLines (buildLinesData [[97, 98, 99]]) ≠ some [[97, 98, 99]] := by
  decide

/-- C3, amended — for at most 999 lines, each shorter than 65531 bytes,
decode returns each encoded line with the trailing newline that encode
appended, followed by one empty line for the flush marker; and the decode
terminates with its cursor exactly at the input length. -/
theorem pktline_decode_encode (lines : List Bytes)
    (hlen : ∀ l ∈ lines, l.length + 5 < 65536)
    (hcount : lines.length < 1000) :
    extractLines (buildLinesData lines) =
        some (lines.map (fun l => l ++ [10]) ++ [[]]) ∧
      extractLinesLoop (buildLinesData lines) 1000 0 [] =
        some (lines.map (fun l => l ++ [10]) ++ [[]], (buildLinesData lines).length) := by
  have h := extractLinesLoop_encoded lines [] [] 1000 hlen hcount
  simp only [List.nil_append, List.length_nil, Nat.zero_add] at h
  exact ⟨by rw [extractLines, h]; rfl, h⟩

/-- Witness for C3 (amended) at a concrete input. -/
theorem pktline_decode_encode_witness :
    extractLines (buildLinesData [[97], []]) = some [[97, 10], [10], []] :=
  (pktline_decode_encode [[97], []] (by decide) (by decide)).1

end PktLine

section TreeCodec

theorem natToOctB_pos (n : Nat) : ∀ b ∈ natToOctB n, 0 < b := by
  refine natToBase_all 8 _ (fun b => 0 < b) ?_ (by omega) n
  intro d hd; omega

theorem natToOctB_not_ws (n : Nat) :
    ∀ b ∈ natToOctB n, ¬(b = 9 ∨ b = 10 ∨ b = 11 ∨ b = 12 ∨ b = 13 ∨ b = 32) := by
  refine natToBase_all 8 _ _ ?_ (by omega) n
  intro d hd; omega

/-- One serialized tree entry, as `Tree.write_tree` emits it:
`"{:o} {}".format(mode, path).encode() ‖ b"\x00" ‖ sha1`. -/
def serializeTreeEntry (mode : Nat) (path : Bytes) (sha1 : Bytes) : Bytes :=
  (natToOctB mode ++ [32] ++ path) ++ [0] ++ sha1

/-- The `for _ in range(1000)` loop of `Tree.read_tree`: find the next NUL
from the cursor (stop when there is none), split `mode path` on
whitespace, parse the octal mode, take the following 20 bytes as the
digest, and advance the cursor past them.  `none` models a raised
unpack/`int()` error. -/
def readTreeLoop (data : Bytes) : Nat → Nat → List (Nat × Bytes × Bytes) →
    Option (List (Nat × Bytes × Bytes))
  | 0, _, entries => some entries
  | fuel + 1, i, entries =>
    match findFrom data 0 i with
    | none => some entries
    | some e =>
      match pySplitWS (pySlice data i e) with
      | [mode_str, path] =>
        (parseOctB mode_str).bind (fun mode =>
          readTreeLoop data fuel (e + 1 + 20)
            (entries ++ [(mode, path, bytesToHexB (pySlice data (e + 1) (e + 21)))]))
      | _ => none

/-- `Tree.read_tree` applied to an already-decompressed tree payload. -/
def readTree (data : Bytes) : Option (List (Nat × Bytes × Bytes)) :=
  readTreeLoop data 1000 0 []

theorem readTreeLoop_length_le (data : Bytes) :
    ∀ fuel i entries r, readTreeLoop data fuel i entries = some r →
      r.length ≤ entries.length + fuel := by
  intro fuel
  induction fuel with
  | zero =>
    intro i entries r h
    rw [readTreeLoop] at h
    cases h
    omega
  | succ fuel ih =>
    intro i entries r h
    rw [readTreeLoop] at h
    split at h
    · cases h
      omega
    · split at h
      · rename_i heq
        cases hm : parseOctB _ with
        | none => rw [hm] at h; simp at h
        | some mode =>
          rw [hm, Option.some_bind] at h
          have := ih _ _ _ h
          simp only [List.length_append, List.length_cons, List.length_nil] at this
          omega
      · simp at h

/-- Well-formedness of one in-memory tree entry: non-empty path without
NUL or whitespace bytes, 20-byte digest. -/
def treeEntryWF (e : Nat × Bytes × Bytes) : Prop :=
  e.2.1 ≠ [] ∧ (∀ b ∈ e.2.1, b ≠ 0 ∧ isWSB b = false) ∧ e.2.2.length = 20

theorem readTreeLoop_stop (data : Bytes) (fuel i : Nat)
    (entries : List (Nat × Bytes × Bytes)) (hf : findFrom data 0 i = none) :
    readTreeLoop data (fuel + 1) i entries = some entries := by
  rw [readTreeLoop]
  split
  · rfl
  · rename_i e heq
    rw [hf] at heq
    cases heq

theorem readTreeLoop_step (data : Bytes) (fuel i : Nat)
    (entries : List (Nat × Bytes × Bytes)) (e mode : Nat) (mode_str path : Bytes)
    (hf : findFrom data 0 i = some e)
    (hs : pySplitWS (pySlice data i e) = [mode_str, path])
    (hm : parseOctB mode_str = some mode) :
    readTreeLoop data (fuel + 1) i entries =
      readTreeLoop data fuel (e + 1 + 20)
        (entries ++ [(mode, path, bytesToHexB (pySlice data (e + 1) (e + 21)))]) := by
  rw [readTreeLoop]
  split
  · rename_i heq
    rw [hf] at heq
    cases heq
  · rename_i e2 heq
    rw [hf] at heq
    injection heq with he
    subst he
    split
    · rename_i ms pt heq2
      rw [hs] at heq2
      injection heq2 with h1 h2
      injection h2 with h2 h3
      subst h1
      subst h2
      rw [hm, Option.some_bind]
    · rename_i heq2
      exact ((heq2 mode_str path hs)).elim

theorem readTreeLoop_serialized (es : List (Nat × Bytes × Bytes)) :
    ∀ (done : Bytes) (entries : List (Nat × Bytes × Bytes)) (fuel : Nat),
      (∀ e ∈ es, treeEntryWF e) → es.length ≤ fuel →
      readTreeLoop (done ++ (es.map
          (fun e => serializeTreeEntry e.1 e.2.1 e.2.2)).flatten) fuel done.length entries =
        some (entries ++ es.map (fun e => (e.1, e.2.1, bytesToHexB e.2.2))) := by
  induction es with
  | nil =>
    intro done entries fuel hwf hfuel
    have hdata : done ++ (List.map (fun e => serializeTreeEntry e.1 e.2.1 e.2.2)
        ([] : List (Nat × Bytes × Bytes))).flatten = done := by simp
    rw [hdata]
    have hfind : findFrom done 0 done.length = none := by
      apply findFrom_none
      intro b hb
      rw [List.drop_length] at hb
      cases hb
    cases fuel with
    | zero => rw [readTreeLoop]; simp
    | succ fuel =>
      rw [readTreeLoop_stop _ _ _ _ hfind]
      simp
  | cons e0 es ih =>
    intro done entries fuel hwf hfuel
    obtain ⟨m, p, s⟩ := e0
    obtain ⟨hpne, hpb, hs20⟩ := hwf (m, p, s) (by simp)
    have hs20s : s.length = 20 := hs20
    cases fuel with
    | zero => simp at hfuel
    | succ fuel =>
      set A : Bytes := natToOctB m ++ [32] ++ p with hA
      have hApos : ∀ b ∈ A, b ≠ 0 := by
        intro b hb
        rw [hA] at hb
        rcases List.mem_append.mp hb with hb | hb
        · rcases List.mem_append.mp hb with hb | hb
          · have := natToOctB_pos m b hb; omega
          · simp only [List.mem_singleton] at hb; omega
        · exact (hpb b hb).1
      have hdata : done ++ (List.map (fun e => serializeTreeEntry e.1 e.2.1 e.2.2)
          ((m, p, s) :: es)).flatten =
          done ++ (A ++ 0 :: (s ++ (List.map
            (fun e => serializeTreeEntry e.1 e.2.1 e.2.2) es).flatten)) := by
        simp only [List.map_cons, List.flatten_cons, serializeTreeEntry, hA]
        simp [List.append_assoc]
      have hfind : findFrom (done ++ (A ++ 0 :: (s ++ (List.map
          (fun e => serializeTreeEntry e.1 e.2.1 e.2.2) es).flatten))) 0 done.length =
          some (done.length + A.length) :=
        findFrom_split _ done.length A _ (by rw [List.drop_left]) hApos
      have hslice : pySlice (done ++ (A ++ 0 :: (s ++ (List.map
          (fun e => serializeTreeEntry e.1 e.2.1 e.2.2) es).flatten)))
          done.length (done.length + A.length) = A := by
        rw [pySlice_append_take, List.take_left' rfl]
      have hsplit : pySplitWS (pySlice (done ++ (A ++ 0 :: (s ++ (List.map
          (fun e => serializeTreeEntry e.1 e.2.1 e.2.2) es).flatten)))
          done.length (done.length + A.length)) = [natToOctB m, p] := by
        rw [hslice]
        have hA2 : A = natToOctB m ++ 32 :: p := by
          rw [hA, List.append_assoc, List.singleton_append]
        rw [hA2]
        exact pySplitWS_two (natToOctB m) p (natToBase_ne_nil _ _ _) hpne
          (fun b hb => by
            have hb6 := natToOctB_not_ws m b hb
            rw [Bool.eq_false_iff]
            intro hw
            exact hb6 (by simpa [isWSB, or_assoc] using hw))
          (fun b hb => (hpb b hb).2)
      rw [hdata, readTreeLoop_step _ fuel done.length entries (done.length + A.length)
        m (natToOctB m) p hfind hsplit (parseOctB_natToOctB m)]
      have hdig : pySlice (done ++ (A ++ 0 :: (s ++ (List.map
          (fun e => serializeTreeEntry e.1 e.2.1 e.2.2) es).flatten)))
          (done.length + A.length + 1) (done.length + A.length + 21) = s := by
        have hsplit2 : done ++ (A ++ 0 :: (s ++ (List.map
            (fun e => serializeTreeEntry e.1 e.2.1 e.2.2) es).flatten)) =
            (done ++ A ++ [0]) ++ (s ++ (List.map
              (fun e => serializeTreeEntry e.1 e.2.1 e.2.2) es).flatten) := by
          simp [List.append_assoc]
        have hl1 : done.length + A.length + 1 = (done ++ A ++ [0]).length + 0 := by
          simp only [List.length_append, List.length_cons, List.length_nil]
        have hl2 : done.length + A.length + 21 = (done ++ A ++ [0]).length + 20 := by
          simp only [List.length_append, List.length_cons, List.length_nil]
        rw [hsplit2, hl1, hl2, pySlice_shift, pySlice, List.drop_zero,
          List.take_left' hs20]
      rw [hdig]
      have hnext : done.length + A.length + 1 + 20 =
          (done ++ serializeTreeEntry m p s).length := by
        simp only [List.length_append, serializeTreeEntry, hA, List.length_cons,
          List.length_nil]
        omega
      have hdata2 : done ++ (A ++ 0 :: (s ++ (List.map
          (fun e => serializeTreeEntry e.1 e.2.1 e.2.2) es).flatten)) =
          (done ++ serializeTreeEntry m p s) ++ (List.map
            (fun e => serializeTreeEntry e.1 e.2.1 e.2.2) es).flatten := by
        simp only [serializeTreeEntry, hA]
        simp [List.append_assoc]
      rw [hnext, hdata2, ih _ _ fuel (fun x hx => hwf x (by simp [hx]))
        (by simpa using hfuel)]
      simp

/-- C6, amended — `read_tree` parses one `(mode, path, digest)` triple per
serialized entry for trees with at most 1000 entries; its loop is the
source's `for _ in range(1000)`, so larger trees are silently truncated
(see the counterexample). -/
theorem readtree_parses_serialized (es : List (Nat × Bytes × Bytes))
    (hwf : ∀ e ∈ es, treeEntryWF e) (hcount : es.length ≤ 1000) :
    readTree ((es.map (fun e => serializeTreeEntry e.1 e.2.1 e.2.2)).flatten) =
      some (es.map (fun e => (e.1, e.2.1, bytesToHexB e.2.2))) := by
  have h := readTreeLoop_serialized es [] [] 1000 hwf hcount
  simp only [List.nil_append, List.length_nil] at h
  rw [readTree, h]

/-- Witness for C6 (amended) at a concrete input. -/
theorem readtree_parses_serialized_witness :
    readTree ((([(5, [97], List.replicate 20 1)] : List (Nat × Bytes × Bytes)).map
        (fun e => serializeTreeEntry e.1 e.2.1 e.2.2)).flatten) =
      some [(5, [97], bytesToHexB (List.replicate 20 1))] := by
  apply readtree_parses_serialized
  · intro e he
    simp only [List.mem_singleton] at he
    subst he
    refine ⟨by decide, ?_, by decide⟩
    intro b hb
    simp only [List.mem_singleton] at hb
    subst hb
    decide
  · decide

/-- The serialized form of a well-formed tree with 1001 entries. -/
def bigTreeData : Bytes :=
  ((List.replicate 1001 ((5 : Nat), ([97] : Bytes), List.replicate 20 1)).map
    (fun e => serializeTreeEntry e.1 e.2.1 e.2.2)).flatten

/-- C6, counterexample — on a well-formed tree with 1001 serialized
entries, `read_tree` does not return one triple per entry: its
`range(1000)` cap bounds the result at 1000 entries, silently dropping the
rest. -/
theorem readtree_cap_drops_entries :
    readTree bigTreeData ≠
      some (List.replicate 1001 ((5 : Nat), ([97] : Bytes),
        bytesToHexB (List.replicate 20 1))) := by
  intro h
  have hle := readTreeLoop_length_le bigTreeData 1000 0 [] _ h
  simp only [List.length_nil, List.length_replicate] at hle
  omega

end TreeCodec

section IndexCodec

/-- One staging-index entry (the `IndexEntry` namedtuple), fields in the
source's order.  `path` is the path's UTF-8 bytes. -/
@[ext] structure IndexEntry where
  ctime_s : Nat
  ctime_n : Nat
  mtime_s : Nat
  mtime_n : Nat
  dev : Nat
  ino : Nat
  mode : Nat
  uid : Nat
  gid : Nat
  size : Nat
  sha1 : Bytes
  flags : Nat
  path : Bytes
deriving DecidableEq

/-- `struct.pack` `"20s"`: pad with NULs / truncate to exactly 20 bytes. -/
def pack20s (s : Bytes) : Bytes := s.take 20 ++ List.replicate (20 - s.length) 0

theorem length_pack20s (s : Bytes) : (pack20s s).length = 20 := by
  simp only [pack20s, List.length_append, List.length_take, List.length_replicate]
  omega

theorem pack20s_of_len20 (s : Bytes) (h : s.length = 20) : pack20s s = s := by
  rw [pack20s, h]
  simp
  omega

/-- The ranges `struct.pack('!LLLLLLLLLL20sH', …)` accepts: each `L` field
below `2^32`, the `H` field below `2^16`. -/
def entryFieldsWF (e : IndexEntry) : Prop :=
  e.ctime_s < 4294967296 ∧ e.ctime_n < 4294967296 ∧ e.mtime_s < 4294967296 ∧
  e.mtime_n < 4294967296 ∧ e.dev < 4294967296 ∧ e.ino < 4294967296 ∧
  e.mode < 4294967296 ∧ e.uid < 4294967296 ∧ e.gid < 4294967296 ∧
  e.size < 4294967296 ∧ e.flags < 65536

instance (e : IndexEntry) : Decidable (entryFieldsWF e) := by
  unfold entryFieldsWF
  infer_instance

/-- The 62-byte metadata block: `struct.pack('!LLLLLLLLLL20sH', …)`. -/
def packEntryHead (e : IndexEntry) : Bytes :=
  toBE 4 e.ctime_s ++ toBE 4 e.ctime_n ++ toBE 4 e.mtime_s ++ toBE 4 e.mtime_n ++
  toBE 4 e.dev ++ toBE 4 e.ino ++ toBE 4 e.mode ++ toBE 4 e.uid ++ toBE 4 e.gid ++
  toBE 4 e.size ++ pack20s e.sha1 ++ toBE 2 e.flags

theorem length_packEntryHead (e : IndexEntry) : (packEntryHead e).length = 62 := by
  simp [packEntryHead, length_toBE, length_pack20s]

/-- The 8-byte-aligned total record length: `((62 + len(path) + 8) // 8) * 8`. -/
def entryRecordLen (pathLen : Nat) : Nat := ((62 + pathLen + 8) / 8) * 8

theorem entryRecordLen_bounds (pl : Nat) :
    62 + pl + 1 ≤ entryRecordLen pl ∧ entryRecordLen pl ≤ 62 + pl + 8 := by
  rw [entryRecordLen]
  omega

/-- One full index record: metadata block, path bytes, NUL padding. -/
def packIndexEntry (e : IndexEntry) : Bytes :=
  packEntryHead e ++ e.path ++
    List.replicate (entryRecordLen e.path.length - 62 - e.path.length) 0

theorem length_packIndexEntry (e : IndexEntry) :
    (packIndexEntry e).length = entryRecordLen e.path.length := by
  have hb := entryRecordLen_bounds e.path.length
  simp only [packIndexEntry, List.length_append, List.length_replicate,
    length_packEntryHead]
  omega

/-- `Index.write_index`: 12-byte header (`"DIRC"`, version 2, count), the
packed records, and the trailing 20-byte digest of everything before it.
`none` models a `struct.error` on an out-of-range field. -/
def writeIndex (E : ExtLib) (entries : List IndexEntry) : Option Bytes :=
  if (∀ e ∈ entries, entryFieldsWF e) ∧ entries.length < 4294967296 then
    some ((strB "DIRC" ++ toBE 4 2 ++ toBE 4 entries.length ++
        (entries.map packIndexEntry).flatten) ++
      E.sha1raw (strB "DIRC" ++ toBE 4 2 ++ toBE 4 entries.length ++
        (entries.map packIndexEntry).flatten))
  else none

/-- Field extraction from the 62-byte block (`struct.unpack`), plus the
separately scanned path. -/
def unpackEntry (block path : Bytes) : IndexEntry :=
  { ctime_s := fromBE (pySlice block 0 4)
    ctime_n := fromBE (pySlice block 4 8)
    mtime_s := fromBE (pySlice block 8 12)
    mtime_n := fromBE (pySlice block 12 16)
    dev := fromBE (pySlice block 16 20)
    ino := fromBE (pySlice block 20 24)
    mode := fromBE (pySlice block 24 28)
    uid := fromBE (pySlice block 28 32)
    gid := fromBE (pySlice block 32 36)
    size := fromBE (pySlice block 36 40)
    sha1 := pySlice block 40 60
    flags := fromBE (pySlice block 60 62)
    path := path }

/-- The `while i + 62 < len(entry_data)` loop of `Index.read_index`:
unpack the 62-byte block, scan for the path's NUL terminator, advance by
the 8-byte-aligned record length.  `none` is a raised error (or exhausted
fuel, which adequate fuel rules out). -/
def readIndexLoop (entry_data : Bytes) : Nat → Nat → List IndexEntry →
    Option (List IndexEntry)
  | 0, _, _ => none
  | fuel + 1, i, entries =>
    if i + 62 < entry_data.length then
      (findFrom entry_data 0 (i + 62)).bind (fun path_end =>
        readIndexLoop entry_data fuel
          (i + entryRecordLen (pySlice entry_data (i + 62) path_end).length)
          (entries ++ [unpackEntry (pySlice entry_data i (i + 62))
            (pySlice entry_data (i + 62) path_end)]))
    else some entries

/-- `Index.read_index` on the bytes of an existing index file: verify the
trailing digest, the signature and the version, parse the records, check
the count. -/
def readIndexData (E : ExtLib) (data : Bytes) : Option (List IndexEntry) :=
  if E.sha1raw (data.take (data.length - 20)) = data.drop (data.length - 20) then
    if pySlice data 0 4 = strB "DIRC" then
      if fromBE (pySlice data 4 8) = 2 then
        (readIndexLoop (pySlice data 12 (data.length - 20))
            ((pySlice data 12 (data.length - 20)).length + 1) 0 []).bind
          (fun entries =>
            if entries.length = fromBE (pySlice data 8 12) then some entries else none)
      else none
    else none
  else none

/-- `Index.read_index`: an absent index file reads as the empty list. -/
def readIndex (E : ExtLib) (file : Option Bytes) : Option (List IndexEntry) :=
  file.elim (some []) (fun data => readIndexData E data)

theorem pySlice_block (P A B : Bytes) (a b : Nat)
    (ha : P.length = a) (hb : a + A.length = b) :
    pySlice (P ++ A ++ B) a b = A := by
  subst ha
  subst hb
  rw [List.append_assoc, pySlice_append_take, List.take_left]

theorem unpackEntry_ctime_s (b p : Bytes) : (unpackEntry b p).ctime_s = fromBE (pySlice b 0 4) := rfl

theorem unpackEntry_ctime_n (b p : Bytes) : (unpackEntry b p).ctime_n = fromBE (pySlice b 4 8) := rfl

theorem unpackEntry_mtime_s (b p : Bytes) : (unpackEntry b p).mtime_s = fromBE (pySlice b 8 12) := rfl

theorem unpackEntry_mtime_n (b p : Bytes) : (unpackEntry b p).mtime_n = fromBE (pySlice b 12 16) := rfl

theorem unpackEntry_dev (b p : Bytes) : (unpackEntry b p).dev = fromBE (pySlice b 16 20) := rfl

theorem unpackEntry_ino (b p : Bytes) : (unpackEntry b p).ino = fromBE (pySlice b 20 24) := rfl

theorem unpackEntry_mode (b p : Bytes) : (unpackEntry b p).mode = fromBE (pySlice b 24 28) := rfl

theorem unpackEntry_uid (b p : Bytes) : (unpackEntry b p).uid = fromBE (pySlice b 28 32) := rfl

theorem unpackEntry_gid (b p : Bytes) : (unpackEntry b p).gid = fromBE (pySlice b 32 36) := rfl

theorem unpackEntry_size (b p : Bytes) : (unpackEntry b p).size = fromBE (pySlice b 36 40) := rfl

theorem unpackEntry_sha1 (b p : Bytes) : (unpackEntry b p).sha1 = pySlice b 40 60 := rfl

theorem unpackEntry_flags (b p : Bytes) : (unpackEntry b p).flags = fromBE (pySlice b 60 62) := rfl

theorem unpackEntry_path (b p : Bytes) : (unpackEntry b p).path = p := rfl

theorem unpack_pack (e : IndexEntry) (hwf : entryFieldsWF e) (hsha : e.sha1.length = 20) :
    unpackEntry (packEntryHead e) e.path = e := by
  obtain ⟨h1, h2, h3, h4, h5, h6, h7, h8, h9, h10, h11⟩ := hwf
  have hfe : ∀ (P B : Bytes) (x a : Nat), x < 4294967296 → P.length = a →
      fromBE (pySlice (P ++ toBE 4 x ++ B) a (a + 4)) = x := by
    intro P B x a hx hP
    rw [pySlice_block P (toBE 4 x) B a (a + 4) hP (by rw [length_toBE]),
      fromBE_toBE 4 x (by omega)]
  apply IndexEntry.ext
  · rw [unpackEntry_ctime_s,
      show packEntryHead e = [] ++ toBE 4 e.ctime_s ++ (toBE 4 e.ctime_n ++ toBE 4 e.mtime_s ++ toBE 4 e.mtime_n ++ toBE 4 e.dev ++ toBE 4 e.ino ++ toBE 4 e.mode ++ toBE 4 e.uid ++ toBE 4 e.gid ++ toBE 4 e.size ++ pack20s e.sha1 ++ toBE 2 e.flags) from by simp [packEntryHead, List.append_assoc]]
    exact hfe _ _ _ 0 h1 (by simp [length_toBE])
  · rw [unpackEntry_ctime_n,
      show packEntryHead e = toBE 4 e.ctime_s ++ toBE 4 e.ctime_n ++ (toBE 4 e.mtime_s ++ toBE 4 e.mtime_n ++ toBE 4 e.dev ++ toBE 4 e.ino ++ toBE 4 e.mode ++ toBE 4 e.uid ++ toBE 4 e.gid ++ toBE 4 e.size ++ pack20s e.sha1 ++ toBE 2 e.flags) from by simp [packEntryHead, List.append_assoc]]
    exact hfe _ _ _ 4 h2 (by simp [length_toBE])
  · rw [unpackEntry_mtime_s,
      show packEntryHead e = (toBE 4 e.ctime_s ++ toBE 4 e.ctime_n) ++ toBE 4 e.mtime_s ++ (toBE 4 e.mtime_n ++ toBE 4 e.dev ++ toBE 4 e.ino ++ toBE 4 e.mode ++ toBE 4 e.uid ++ toBE 4 e.gid ++ toBE 4 e.size ++ pack20s e.sha1 ++ toBE 2 e.flags) from by simp [packEntryHead, List.append_assoc]]
    exact hfe _ _ _ 8 h3 (by simp [length_toBE])
  · rw [unpackEntry_mtime_n,
      show packEntryHead e = (toBE 4 e.ctime_s ++ toBE 4 e.ctime_n ++ toBE 4 e.mtime_s) ++ toBE 4 e.mtime_n ++ (toBE 4 e.dev ++ toBE 4 e.ino ++ toBE 4 e.mode ++ toBE 4 e.uid ++ toBE 4 e.gid ++ toBE 4 e.size ++ pack20s e.sha1 ++ toBE 2 e.flags) from by simp [packEntryHead, List.append_assoc]]
    exact hfe _ _ _ 12 h4 (by simp [length_toBE])
  · rw [unpackEntry_dev,
      show packEntryHead e = (toBE 4 e.ctime_s ++ toBE 4 e.ctime_n ++ toBE 4 e.mtime_s ++ toBE 4 e.mtime_n) ++ toBE 4 e.dev ++ (toBE 4 e.ino ++ toBE 4 e.mode ++ toBE 4 e.uid ++ toBE 4 e.gid ++ toBE 4 e.size ++ pack20s e.sha1 ++ toBE 2 e.flags) from by simp [packEntryHead, List.append_assoc]]
    exact hfe _ _ _ 16 h5 (by simp [length_toBE])
  · rw [unpackEntry_ino,
      show packEntryHead e = (toBE 4 e.ctime_s ++ toBE 4 e.ctime_n ++ toBE 4 e.mtime_s ++ toBE 4 e.mtime_n ++ toBE 4 e.dev) ++ toBE 4 e.ino ++ (toBE 4 e.mode ++ toBE 4 e.uid ++ toBE 4 e.gid ++ toBE 4 e.size ++ pack20s e.sha1 ++ toBE 2 e.flags) from by simp [packEntryHead, List.append_assoc]]
    exact hfe _ _ _ 20 h6 (by simp [length_toBE])
  · rw [unpackEntry_mode,
      show packEntryHead e = (toBE 4 e.ctime_s ++ toBE 4 e.ctime_n ++ toBE 4 e.mtime_s ++ toBE 4 e.mtime_n ++ toBE 4 e.dev ++ toBE 4 e.ino) ++ toBE 4 e.mode ++ (toBE 4 e.uid ++ toBE 4 e.gid ++ toBE 4 e.size ++ pack20s e.sha1 ++ toBE 2 e.flags) from by simp [packEntryHead, List.append_assoc]]
    exact hfe _ _ _ 24 h7 (by simp [length_toBE])
  · rw [unpackEntry_uid,
      show packEntryHead e = (toBE 4 e.ctime_s ++ toBE 4 e.ctime_n ++ toBE 4 e.mtime_s ++ toBE 4 e.mtime_n ++ toBE 4 e.dev ++ toBE 4 e.ino ++ toBE 4 e.mode) ++ toBE 4 e.uid ++ (toBE 4 e.gid ++ toBE 4 e.size ++ pack20s e.sha1 ++ toBE 2 e.flags) from by simp [packEntryHead, List.append_assoc]]
    exact hfe _ _ _ 28 h8 (by simp [length_toBE])
  · rw [unpackEntry_gid,
      show packEntryHead e = (toBE 4 e.ctime_s ++ toBE 4 e.ctime_n ++ toBE 4 e.mtime_s ++ toBE 4 e.mtime_n ++ toBE 4 e.dev ++ toBE 4 e.ino ++ toBE 4 e.mode ++ toBE 4 e.uid) ++ toBE 4 e.gid ++ (toBE 4 e.size ++ pack20s e.sha1 ++ toBE 2 e.flags) from by simp [packEntryHead, List.append_assoc]]
    exact hfe _ _ _ 32 h9 (by simp [length_toBE])
  · rw [unpackEntry_size,
      show packEntryHead e = (toBE 4 e.ctime_s ++ toBE 4 e.ctime_n ++ toBE 4 e.mtime_s ++ toBE 4 e.mtime_n ++ toBE 4 e.dev ++ toBE 4 e.ino ++ toBE 4 e.mode ++ toBE 4 e.uid ++ toBE 4 e.gid) ++ toBE 4 e.size ++ (pack20s e.sha1 ++ toBE 2 e.flags) from by simp [packEntryHead, List.append_assoc]]
    exact hfe _ _ _ 36 h10 (by simp [length_toBE])
  · rw [unpackEntry_sha1,
      show packEntryHead e = (toBE 4 e.ctime_s ++ toBE 4 e.ctime_n ++ toBE 4 e.mtime_s ++ toBE 4 e.mtime_n ++ toBE 4 e.dev ++ toBE 4 e.ino ++ toBE 4 e.mode ++ toBE 4 e.uid ++ toBE 4 e.gid ++ toBE 4 e.size) ++ pack20s e.sha1 ++ toBE 2 e.flags from by simp [packEntryHead, List.append_assoc]]
    exact (pySlice_block _ _ _ 40 60 (by simp [length_toBE])
      (by rw [length_pack20s])).trans (pack20s_of_len20 _ hsha)
  · rw [unpackEntry_flags,
      show packEntryHead e = (toBE 4 e.ctime_s ++ toBE 4 e.ctime_n ++ toBE 4 e.mtime_s ++ toBE 4 e.mtime_n ++ toBE 4 e.dev ++ toBE 4 e.ino ++ toBE 4 e.mode ++ toBE 4 e.uid ++ toBE 4 e.gid ++ toBE 4 e.size ++ pack20s e.sha1) ++ toBE 2 e.flags ++ [] from by simp [packEntryHead, List.append_assoc]]
    exact (congrArg fromBE (pySlice_block _ _ _ 60 62
      (by simp [length_toBE, length_pack20s]) (by rw [length_toBE]))).trans
      (fromBE_toBE 2 _ (by omega))
  · exact unpackEntry_path _ _

/-- Well-formedness of one in-memory index entry for the round trip:
in-range fields, a 20-byte id, and a NUL-free path. -/
def indexEntryWF (e : IndexEntry) : Prop :=
  entryFieldsWF e ∧ e.sha1.length = 20 ∧ ∀ b ∈ e.path, b ≠ 0

theorem replicate_zero_cons (k : Nat) (hk : 1 ≤ k) :
    List.replicate k (0 : Nat) = 0 :: List.replicate (k - 1) 0 := by
  cases k with
  | zero => omega
  | succ k => simp [List.replicate_succ]

theorem length_le_flatten_pack (es : List IndexEntry) :
    es.length ≤ ((es.map packIndexEntry).flatten).length := by
  induction es with
  | nil => simp
  | cons e es ih =>
    simp only [List.map_cons, List.flatten_cons, List.length_cons, List.length_append,
      length_packIndexEntry]
    have := (entryRecordLen_bounds e.path.length).1
    omega

theorem readIndexLoop_packed (es : List IndexEntry) :
    ∀ (done : Bytes) (acc : List IndexEntry) (fuel : Nat),
      (∀ e ∈ es, indexEntryWF e) → es.length < fuel →
      readIndexLoop (done ++ (es.map packIndexEntry).flatten) fuel done.length acc =
        some (acc ++ es) := by
  induction es with
  | nil =>
    intro done acc fuel hwf hfuel
    cases fuel with
    | zero => omega
    | succ fuel =>
      rw [readIndexLoop]
      have hle : ¬(done.length + 62 < (done ++ (List.map packIndexEntry
          ([] : List IndexEntry)).flatten).length) := by
        simp
      rw [if_neg hle]
      simp
  | cons e es ih =>
    intro done acc fuel hwf hfuel
    obtain ⟨hef, hsha, hpath⟩ := hwf e (by simp)
    cases fuel with
    | zero => simp at hfuel
    | succ fuel =>
      have hb := entryRecordLen_bounds e.path.length
      set k : Nat := entryRecordLen e.path.length - 62 - e.path.length with hk
      have hk1 : 1 ≤ k := by rw [hk]; omega
      have hpadeq : List.replicate k (0 : Nat) = 0 :: List.replicate (k - 1) 0 :=
        replicate_zero_cons k hk1
      have hdata : done ++ (List.map packIndexEntry (e :: es)).flatten =
          (done ++ packEntryHead e) ++ (e.path ++ 0 :: (List.replicate (k - 1) 0 ++
            (List.map packIndexEntry es).flatten)) := by
        simp only [List.map_cons, List.flatten_cons, packIndexEntry, ← hk, hpadeq]
        simp [List.append_assoc]
      rw [readIndexLoop]
      have hcond : done.length + 62 < (done ++ (List.map packIndexEntry
          (e :: es)).flatten).length := by
        rw [hdata]
        simp only [List.length_append, length_packEntryHead, List.length_cons]
        omega
      rw [if_pos hcond]
      have hfind : findFrom (done ++ (List.map packIndexEntry (e :: es)).flatten) 0
          (done.length + 62) = some (done.length + 62 + e.path.length) := by
        rw [hdata]
        have hdl : done.length + 62 = (done ++ packEntryHead e).length := by
          simp [length_packEntryHead]
        rw [hdl]
        exact findFrom_split _ _ e.path _ (by rw [List.drop_left]) hpath
      rw [hfind, Option.some_bind]
      have hpslice : pySlice (done ++ (List.map packIndexEntry (e :: es)).flatten)
          (done.length + 62) (done.length + 62 + e.path.length) = e.path := by
        rw [hdata]
        have hdl : done.length + 62 = (done ++ packEntryHead e).length := by
          simp [length_packEntryHead]
        rw [hdl, pySlice_append_take, List.take_left' rfl]
      have hbslice : pySlice (done ++ (List.map packIndexEntry (e :: es)).flatten)
          done.length (done.length + 62) = packEntryHead e := by
        have hdata2 : done ++ (List.map packIndexEntry (e :: es)).flatten =
            done ++ (packEntryHead e ++ (e.path ++ (List.replicate k 0 ++
              (List.map packIndexEntry es).flatten))) := by
          simp only [List.map_cons, List.flatten_cons, packIndexEntry, ← hk]
          simp [List.append_assoc]
        rw [hdata2, pySlice_append_take, List.take_left' (length_packEntryHead e)]
      rw [hpslice, hbslice, unpack_pack e hef hsha]
      have hnext : done.length + entryRecordLen e.path.length =
          (done ++ packIndexEntry e).length := by
        simp [length_packIndexEntry]
      have hdata3 : done ++ (List.map packIndexEntry (e :: es)).flatten =
          (done ++ packIndexEntry e) ++ (List.map packIndexEntry es).flatten := by
        simp [List.append_assoc]
      rw [hnext, hdata3, ih _ _ fuel (fun x hx => hwf x (by simp [hx]))
        (by simpa using hfuel)]
      simp

/-- C2 — Index round trip: writing any list of well-formed entries
(in-range metadata fields, 20-byte ids, NUL-free paths, sorted ascending
by unique paths) and reading the file back returns exactly the same
entries, every metadata field, id, flags and path bit-exact.  The hash is
only assumed to produce 20-byte digests. -/
theorem index_write_read_roundtrip (E : ExtLib) (entries : List IndexEntry)
    (hH : ∀ b, (E.sha1raw b).length = 20)
    (hwf : ∀ e ∈ entries, indexEntryWF e)
    (hsorted : List.Sorted (· < ·) (entries.map (fun e => e.path)))
    (hcount : entries.length < 4294967296) :
    ∃ w, writeIndex E entries = some w ∧ readIndex E (some w) = some entries := by
  have hw : writeIndex E entries = some ((strB "DIRC" ++ toBE 4 2 ++
      toBE 4 entries.length ++ (entries.map packIndexEntry).flatten) ++
      E.sha1raw (strB "DIRC" ++ toBE 4 2 ++ toBE 4 entries.length ++
        (entries.map packIndexEntry).flatten)) := by
    rw [writeIndex, if_pos ⟨fun e he => (hwf e he).1, hcount⟩]
  refine ⟨_, hw, ?_⟩
  set hdr : Bytes := strB "DIRC" ++ toBE 4 2 ++ toBE 4 entries.length with hhdr
  set body : Bytes := (entries.map packIndexEntry).flatten with hbody
  set dig : Bytes := E.sha1raw (hdr ++ body) with hdig
  set w : Bytes := (hdr ++ body) ++ dig with hwdef
  show readIndex E (some w) = some entries
  have hdiglen : dig.length = 20 := hH _
  have hwl : w.length = (hdr ++ body).length + 20 := by
    rw [hwdef, List.length_append, hdiglen]
  have h20 : w.length - 20 = (hdr ++ body).length := by omega
  have hhdrlen : hdr.length = 12 := by
    rw [hhdr]
    simp only [List.length_append, length_toBE]
    decide
  have htake : w.take (w.length - 20) = hdr ++ body := by
    rw [h20, hwdef, List.take_left]
  have hdrop : w.drop (w.length - 20) = dig := by
    rw [h20, hwdef, List.drop_left]
  have hsig : pySlice w 0 4 = strB "DIRC" := by
    have hshape : w = strB "DIRC" ++ (toBE 4 2 ++ (toBE 4 entries.length ++
        (body ++ dig))) := by
      rw [hwdef, hhdr]
      simp [List.append_assoc]
    rw [hshape, pySlice, List.drop_zero,
      List.take_left' (show (strB "DIRC").length = 4 by decide)]
  have hver : pySlice w 4 8 = toBE 4 2 := by
    have hshape : w = strB "DIRC" ++ toBE 4 2 ++ (toBE 4 entries.length ++
        (body ++ dig)) := by
      rw [hwdef, hhdr]
      simp [List.append_assoc]
    rw [hshape]
    exact pySlice_block _ _ _ 4 8 (by decide) (by rw [length_toBE])
  have hcnt : pySlice w 8 12 = toBE 4 entries.length := by
    have hshape : w = (strB "DIRC" ++ toBE 4 2) ++ toBE 4 entries.length ++
        (body ++ dig) := by
      rw [hwdef, hhdr]
      simp [List.append_assoc]
    rw [hshape]
    exact pySlice_block _ _ _ 8 12 (by simp [length_toBE]; decide) (by rw [length_toBE])
  have hent : pySlice w 12 (w.length - 20) = body := by
    rw [h20, pySlice, hwdef, List.take_left, ← hhdrlen, List.drop_left' rfl]
  rw [readIndex]
  simp only [Option.elim_some]
  rw [readIndexData, htake, hdrop, if_pos rfl, hsig, if_pos rfl, hver,
    fromBE_toBE 4 2 (by omega), if_pos rfl, hent]
  have hloop : readIndexLoop body (body.length + 1) 0 [] = some entries := by
    have h := readIndexLoop_packed entries [] [] (body.length + 1) hwf
      (by have := length_le_flatten_pack entries; rw [← hbody] at this; omega)
    simp only [List.nil_append, List.length_nil] at h
    rw [← hbody] at h
    exact h
  rw [hloop, Option.some_bind, hcnt, fromBE_toBE 4 entries.length (by omega),
    if_pos rfl]

/-- A concrete well-formed index entry for witnesses. -/
def wEntry : IndexEntry :=
  ⟨1, 2, 3, 4, 5, 6, 7, 8, 9, 10, List.replicate 20 7, 11, [97]⟩

/-- A concrete external-library instance whose raw digest always has 20
bytes. -/
def ext20 : ExtLib := ⟨hashStub, fun x => List.replicate 20 0, id, id⟩

/-- Witness for C2 at a concrete input. -/
theorem index_write_read_roundtrip_witness :
    ∃ w, writeIndex ext20 [wEntry] = some w ∧
      readIndex ext20 (some w) = some [wEntry] := by
  apply index_write_read_roundtrip
  · intro b
    show (List.replicate 20 (0 : Nat)).length = 20
    decide
  · intro e he
    simp only [List.mem_singleton] at he
    subst he
    refine ⟨by decide, by decide, ?_⟩
    intro b hb
    simp only [wEntry, List.mem_singleton] at hb
    subst hb
    decide
  · simp
  · decide

end IndexCodec

section PackCodec

/-- `Mixin.decompress`: like `HashObject.decompress` but with no expected
type — it returns the parsed `(type, payload)` pair, checking only the
declared size. -/
def decompressM (E : ExtLib) (s : GitStore) (sha1 : Bytes) : Option (Bytes × Bytes) := do
  let stored ← findObject s sha1
  let full_data := E.zdecomp stored
  let nul_index ← findFrom full_data 0 0
  let header := pySlice full_data 0 nul_index
  match pySplitWS header with
  | [obj_type, size_str] => do
    let size ← parseDecB size_str
    let data := pyDrop full_data (nul_index + 1)
    if size = data.length then some (obj_type, data) else none
  | _ => none

/-- `Mixin.OBJ_TYPE`: the tag table (a `"tag"` object has no entry, so
encoding one raises `KeyError`, modelled as `none`). -/
def OBJ_TYPE : List (Bytes × Nat) := [(strB "commit", 1), (strB "tree", 2), (strB "blob", 3)]

/-- Dictionary lookup `OBJ_TYPE[obj_type]`. -/
def objTypeNum (t : Bytes) : Option Nat :=
  (OBJ_TYPE.find? (fun kv => kv.1 == t)).map (fun kv => kv.2)

/-- The size-varint loop of `Mixin.encode_pack_object`: while the
remaining size is nonzero, emit the pending byte with the continuation bit
and keep 7 more bits; finally emit the pending byte.  Structural fuel
(`≥ size`) stands in for the `while`. -/
def packObjHeader : Nat → Nat → Nat → Bytes
  | 0, byte, _ => [byte]
  | fuel + 1, byte, size =>
    if size = 0 then [byte]
    else (byte ||| 128) :: packObjHeader fuel (size &&& 127) (size >>> 7)

/-- `Mixin.encode_pack_object`: first byte `(type << 4) | (size & 0xF)`,
then the varint continuation of the size, then the compressed payload. -/
def encodePackObject (E : ExtLib) (s : GitStore) (obj : Bytes) : Option Bytes := do
  let td ← decompressM E s obj
  let type_num ← objTypeNum td.1
  some (packObjHeader td.2.length ((type_num <<< 4) ||| (td.2.length &&& 15))
    (td.2.length >>> 4) ++ E.zcomp td.2)

/-- `Mixin.create_pack`: header `"PACK" ‖ version 2 ‖ count` (4 bytes
big-endian each), the encoded objects in ascending id order, then the
20-byte digest of everything before it. -/
def createPack (E : ExtLib) (s : GitStore) (objects : Finset Bytes) : Option Bytes :=
  if objects.card < 4294967296 then
    ((objects.sort (· ≤ ·)).mapM (encodePackObject E s)).map (fun encs =>
      (strB "PACK" ++ toBE 4 2 ++ toBE 4 objects.card ++ encs.flatten) ++
        E.sha1raw (strB "PACK" ++ toBE 4 2 ++ toBE 4 objects.card ++ encs.flatten))
  else none

/-- C5 — Pack format: whenever `create_pack` succeeds, its output starts
with `"PACK"`, a 4-byte big-endian version 2 and a 4-byte big-endian count
equal to the id-set's size, continues with the per-object encodings of the
ids in ascending order, and ends with a 20-byte hash over all preceding
bytes. -/
theorem createpack_format (E : ExtLib) (s : GitStore) (objects : Finset Bytes)
    (out : Bytes) (hH : ∀ b, (E.sha1raw b).length = 20)
    (h : createPack E s objects = some out) :
    ∃ encs : List Bytes,
      (objects.sort (· ≤ ·)).mapM (encodePackObject E s) = some encs ∧
      List.Sorted (· ≤ ·) (objects.sort (· ≤ ·)) ∧
      (objects.sort (· ≤ ·)).length = objects.card ∧
      out = (strB "PACK" ++ toBE 4 2 ++ toBE 4 objects.card ++ encs.flatten) ++
        E.sha1raw (strB "PACK" ++ toBE 4 2 ++ toBE 4 objects.card ++ encs.flatten) ∧
      pySlice out 0 4 = strB "PACK" ∧
      fromBE (pySlice out 4 8) = 2 ∧
      fromBE (pySlice out 8 12) = objects.card ∧
      out.drop (out.length - 20) = E.sha1raw (out.take (out.length - 20)) := by
  rw [createPack] at h
  by_cases hcard : objects.card < 4294967296
  · rw [if_pos hcard] at h
    obtain ⟨encs, hencs, hout⟩ := Option.map_eq_some'.mp h
    refine ⟨encs, hencs, Finset.sort_sorted _ _, Finset.length_sort _, hout.symm, ?_, ?_, ?_, ?_⟩
    · have hshape : out = strB "PACK" ++ (toBE 4 2 ++ (toBE 4 objects.card ++
          (encs.flatten ++ E.sha1raw (strB "PACK" ++ toBE 4 2 ++ toBE 4 objects.card ++
            encs.flatten)))) := by
        rw [← hout]
        simp [List.append_assoc]
      rw [hshape, pySlice, List.drop_zero,
        List.take_left' (show (strB "PACK").length = 4 by decide)]
    · have hshape : out = strB "PACK" ++ toBE 4 2 ++ (toBE 4 objects.card ++
          (encs.flatten ++ E.sha1raw (strB "PACK" ++ toBE 4 2 ++ toBE 4 objects.card ++
            encs.flatten))) := by
        rw [← hout]
        simp [List.append_assoc]
      rw [hshape, pySlice_block _ _ _ 4 8 (by decide) (by rw [length_toBE]),
        fromBE_toBE 4 2 (by omega)]
    · have hshape : out = (strB "PACK" ++ toBE 4 2) ++ toBE 4 objects.card ++
          (encs.flatten ++ E.sha1raw (strB "PACK" ++ toBE 4 2 ++ toBE 4 objects.card ++
            encs.flatten)) := by
        rw [← hout]
        simp [List.append_assoc]
      rw [hshape, pySlice_block _ _ _ 8 12 (by simp [length_toBE]; decide)
        (by rw [length_toBE]), fromBE_toBE 4 _ (by omega)]
    · have hlen : out.length = (strB "PACK" ++ toBE 4 2 ++ toBE 4 objects.card ++
          encs.flatten).length + 20 := by
        rw [← hout, List.length_append, hH]
      have h20 : out.length - 20 = (strB "PACK" ++ toBE 4 2 ++ toBE 4 objects.card ++
          encs.flatten).length := by omega
      rw [h20, ← hout, List.drop_left, List.take_left]
  · rw [if_neg hcard] at h
    cases h

/-- Witness for C5 at a concrete input: the empty id set. -/
theorem createpack_format_witness :
    ∃ encs : List Bytes,
      ((∅ : Finset Bytes).sort (· ≤ ·)).mapM (encodePackObject ext20 []) = some encs ∧
      List.Sorted (· ≤ ·) ((∅ : Finset Bytes).sort (· ≤ ·)) ∧
      ((∅ : Finset Bytes).sort (· ≤ ·)).length = (∅ : Finset Bytes).card ∧
      (strB "PACK" ++ toBE 4 2 ++ toBE 4 (∅ : Finset Bytes).card ++
          ([] : List Bytes).flatten) ++
        ext20.sha1raw (strB "PACK" ++ toBE 4 2 ++ toBE 4 (∅ : Finset Bytes).card ++
          ([] : List Bytes).flatten) =
        (strB "PACK" ++ toBE 4 2 ++ toBE 4 (∅ : Finset Bytes).card ++ encs.flatten) ++
          ext20.sha1raw (strB "PACK" ++ toBE 4 2 ++ toBE 4 (∅ : Finset Bytes).card ++
            encs.flatten) ∧
      pySlice ((strB "PACK" ++ toBE 4 2 ++ toBE 4 (∅ : Finset Bytes).card ++
          ([] : List Bytes).flatten) ++
        ext20.sha1raw (strB "PACK" ++ toBE 4 2 ++ toBE 4 (∅ : Finset Bytes).card ++
          ([] : List Bytes).flatten)) 0 4 = strB "PACK" ∧
      fromBE (pySlice ((strB "PACK" ++ toBE 4 2 ++ toBE 4 (∅ : Finset Bytes).card ++
          ([] : List Bytes).flatten) ++
        ext20.sha1raw (strB "PACK" ++ toBE 4 2 ++ toBE 4 (∅ : Finset Bytes).card ++
          ([] : List Bytes).flatten)) 4 8) = 2 ∧
      fromBE (pySlice ((strB "PACK" ++ toBE 4 2 ++ toBE 4 (∅ : Finset Bytes).card ++
          ([] : List Bytes).flatten) ++
        ext20.sha1raw (strB "PACK" ++ toBE 4 2 ++ toBE 4 (∅ : Finset Bytes).card ++
          ([] : List Bytes).flatten)) 8 12) = (∅ : Finset Bytes).card ∧
      ((strB "PACK" ++ toBE 4 2 ++ toBE 4 (∅ : Finset Bytes).card ++
          ([] : List Bytes).flatten) ++
        ext20.sha1raw (strB "PACK" ++ toBE 4 2 ++ toBE 4 (∅ : Finset Bytes).card ++
          ([] : List Bytes).flatten)).drop
          (((strB "PACK" ++ toBE 4 2 ++ toBE 4 (∅ : Finset Bytes).card ++
            ([] : List Bytes).flatten) ++
        ext20.sha1raw (strB "PACK" ++ toBE 4 2 ++ toBE 4 (∅ : Finset Bytes).card ++
          ([] : List Bytes).flatten)).length - 20) =
        ext20.sha1raw (((strB "PACK" ++ toBE 4 2 ++ toBE 4 (∅ : Finset Bytes).card ++
            ([] : List Bytes).flatten) ++
          ext20.sha1raw (strB "PACK" ++ toBE 4 2 ++ toBE 4 (∅ : Finset Bytes).card ++
            ([] : List Bytes).flatten)).take
            (((strB "PACK" ++ toBE 4 2 ++ toBE 4 (∅ : Finset Bytes).card ++
              ([] : List Bytes).flatten) ++
          ext20.sha1raw (strB "PACK" ++ toBE 4 2 ++ toBE 4 (∅ : Finset Bytes).card ++
            ([] : List Bytes).flatten)).length - 20)) :=
  createpack_format ext20 [] ∅ _
    (fun b => show (List.replicate 20 (0 : Nat)).length = 20 by decide)
    (by rw [createPack, if_pos (by decide), Finset.sort_empty]; rfl)

end PackCodec

section CommitGraph

/-- `stat.S_ISDIR`: `mode & 0o170000 == 0o040000`. -/
def S_ISDIR (m : Nat) : Bool := (m &&& 61440) == 16384

/-- `Tree.find_tree_objects`: the tree id itself, plus — for each parsed
entry — either the recursively collected objects of a directory-mode
entry or the entry's id.  Fuel models Python's recursion limit. -/
def findTreeObjects (E : ExtLib) (s : GitStore) : Nat → Bytes → Option (Finset Bytes)
  | 0, _ => none
  | fuel + 1, tree_sha1 => do
    let payload ← decompressK E ObjKind.tree.TYPE s tree_sha1
    let entries ← readTree payload
    entries.foldlM
      (fun acc mps =>
        if S_ISDIR mps.1 then (findTreeObjects E s fuel mps.2.2).map (fun q => acc ∪ q)
        else some (insert mps.2.2 acc))
      ({tree_sha1} : Finset Bytes)

/-- `Commit.find_commit_objects`: the commit id, its tree's objects, and
recursively every parent's objects. -/
def findCommitObjects (E : ExtLib) (s : GitStore) : Nat → Bytes → Option (Finset Bytes)
  | 0, _ => none
  | fuel + 1, commit_sha1 => do
    let commit ← decompressK E ObjKind.commit.TYPE s commit_sha1
    let lines := pySplitlinesB commit
    let tree ← (lines.find? (fun l => (strB "tree ").isPrefixOf l)).map
      (fun l => pySlice l 5 45)
    let tree_objs ← findTreeObjects E s fuel tree
    ((lines.filter (fun l => (strB "parent ").isPrefixOf l)).map
        (fun l => pySlice l 7 47)).foldlM
      (fun acc p => (findCommitObjects E s fuel p).map (fun q => acc ∪ q))
      ({commit_sha1} ∪ tree_objs)

/-- The parent ids a commit object records (`'parent '`-prefixed lines,
chars 7–47), read through `Commit.decompress`. -/
def commitParentIds (E : ExtLib) (s : GitStore) (x : Bytes) : Option (List Bytes) :=
  (decompressK E ObjKind.commit.TYPE s x).map (fun commit =>
    ((pySplitlinesB commit).filter (fun l => (strB "parent ").isPrefixOf l)).map
      (fun l => pySlice l 7 47))

/-- `Commit.find_missing_objects`: all locally reachable objects when
there is no remote id, otherwise the set difference of the two
reachability sets. -/
def findMissingObjects (E : ExtLib) (s : GitStore) (fuel : Nat) (local_sha1 : Bytes) :
    Option Bytes → Option (Finset Bytes)
  | none => findCommitObjects E s fuel local_sha1
  | some r => do
    let local_objects ← findCommitObjects E s fuel local_sha1
    let remote_objects ← findCommitObjects E s fuel r
    some (local_objects \ remote_objects)

theorem foldlM_union_subset (f : Bytes → Option (Finset Bytes)) (ps : List Bytes) :
    ∀ (acc S : Finset Bytes),
      ps.foldlM (fun acc p => (f p).map (fun q => acc ∪ q)) acc = some S →
      acc ⊆ S ∧ ∀ p ∈ ps, ∀ P, f p = some P → P ⊆ S := by
  induction ps with
  | nil =>
    intro acc S h
    rw [List.foldlM_nil] at h
    injection h with h
    subst h
    exact ⟨Finset.Subset.refl _, by simp⟩
  | cons q qs ih =>
    intro acc S h
    rw [List.foldlM_cons] at h
    obtain ⟨acc2, hstep, hrest⟩ := Option.bind_eq_some.mp h
    obtain ⟨Q, hQ, hacc2⟩ := Option.map_eq_some'.mp hstep
    subst hacc2
    obtain ⟨hsub, hmem⟩ := ih _ _ hrest
    refine ⟨(Finset.subset_union_left).trans hsub, ?_⟩
    intro p hp P hP
    rcases List.mem_cons.mp hp with hp | hp
    · subst hp
      rw [hQ] at hP
      injection hP with hP
      subst hP
      exact (Finset.subset_union_right).trans hsub
    · exact hmem p hp P hP

/-- C4 — Commit-graph laws, for a commit `x` whose referenced objects are
present and well-formed (expressed by the successful reachability
computations): `missing(x, None)` is exactly `reachable(x)`;
`missing(x, x)` is empty; and when `x` records a parent `p`,
`reachable(p)` is a subset of `reachable(x)`. -/
theorem commitgraph_laws (E : ExtLib) (s : GitStore) (fuel : Nat) (x p : Bytes)
    (S P : Finset Bytes) (ps : List Bytes)
    (hx : findCommitObjects E s (fuel + 1) x = some S)
    (hps : commitParentIds E s x = some ps)
    (hp : p ∈ ps)
    (hP : findCommitObjects E s fuel p = some P) :
    findMissingObjects E s (fuel + 1) x none = some S ∧
      findMissingObjects E s (fuel + 1) x (some x) = some ∅ ∧
      P ⊆ S := by
  refine ⟨?_, ?_, ?_⟩
  · rw [findMissingObjects]
    exact hx
  · rw [findMissingObjects, hx]
    simp only [Option.bind_eq_bind, Option.some_bind, Finset.sdiff_self]
  · rw [findCommitObjects] at hx
    obtain ⟨commit, hc, hx1⟩ := Option.bind_eq_some.mp hx
    obtain ⟨tree, ht, hx2⟩ := Option.bind_eq_some.mp hx1
    obtain ⟨tobjs, hto, hx3⟩ := Option.bind_eq_some.mp hx2
    rw [commitParentIds, hc, Option.map_some'] at hps
    injection hps with hps
    subst hps
    exact (foldlM_union_subset _ _ _ _ hx3).2 p hp P hP

/-- A 40-char tree id for the C4 witness. -/
def idT : Bytes := List.replicate 40 97

/-- A 40-char parent-commit id for the C4 witness. -/
def idP : Bytes := List.replicate 40 98

/-- A 40-char head-commit id for the C4 witness. -/
def idX : Bytes := List.replicate 40 99

/-- A concrete three-object store for the C4 witness: head commit `idX`
(tree `idT`, parent `idP`), parent commit `idP` (tree `idT`), empty tree
`idT`; stored uncompressed (the witness zlib is the identity). -/
def witStore : GitStore :=
  [(idX, buildHead ObjKind.commit.TYPE
      (strB "tree " ++ idT ++ [10] ++ strB "parent " ++ idP).length ++
      (strB "tree " ++ idT ++ [10] ++ strB "parent " ++ idP)),
   (idP, buildHead ObjKind.commit.TYPE (strB "tree " ++ idT).length ++
      (strB "tree " ++ idT)),
   (idT, buildHead ObjKind.tree.TYPE 0)]

theorem option_eq_some_getD (o : Option (Finset Bytes)) (h : o.isSome = true) :
    o = some (o.getD ∅) := by
  cases o with
  | none => cases h
  | some v => rfl

/-- The head commit's computed reachable set, for the C4 witness. -/
def witS : Finset Bytes := (findCommitObjects extStub witStore 3 idX).getD ∅

/-- The parent commit's computed reachable set, for the C4 witness. -/
def witPS : Finset Bytes := (findCommitObjects extStub witStore 2 idP).getD ∅

/-- Witness for C4 at a concrete input. -/
theorem commitgraph_laws_witness :
    findMissingObjects extStub witStore 3 idX none = some witS ∧
      findMissingObjects extStub witStore 3 idX (some idX) = some ∅ ∧
      witPS ⊆ witS :=
  commitgraph_laws extStub witStore 2 idX idP witS witPS [idP]
    (option_eq_some_getD _ (by rfl)) (by decide) (by decide)
    (option_eq_some_getD _ (by rfl))

end CommitGraph

section StatusEffects

/-- The dict comprehension `{e.path: e for e in read_index()}`: on
duplicate paths the later entry wins. -/
def entriesByPath (entries : List IndexEntry) (p : Bytes) : Option IndexEntry :=
  entries.reverse.find? (fun e => e.path == p)

/-- One step of `Status.get_status`'s `changed` comprehension for a path
`p` in the intersection: run `Blob.compress` on the working file (which
threads the object store) and record `p` when the fresh id differs from
the indexed `sha1.hex()`. -/
def statusStep (E : ExtLib) (fs : Bytes → Bytes) (entries : List IndexEntry)
    (acc : List Bytes × GitStore) (p : Bytes) : List Bytes × GitStore :=
  match entriesByPath entries p with
  | some e =>
    if (compress E ObjKind.blob.TYPE (fs p) acc.2).1 ≠ bytesToHexB e.sha1 then
      (acc.1 ++ [p], (compress E ObjKind.blob.TYPE (fs p) acc.2).2)
    else (acc.1, (compress E ObjKind.blob.TYPE (fs p) acc.2).2)
  | none => (acc.1, (compress E ObjKind.blob.TYPE (fs p) acc.2).2)

/-- The comparison stage of `Status.get_status` (base.py lines 344-349):
`changed` over the intersection of working-tree paths and indexed paths
(iterated in sorted order), `new` and `deleted` as sorted set differences.
`fs` is `read_file`; the returned store is the object store after all the
`Blob.compress` calls the comprehension performed. -/
def getStatusCore (E : ExtLib) (fs : Bytes → Bytes) (entries : List IndexEntry)
    (paths : Finset Bytes) (s : GitStore) :
    (List Bytes × List Bytes × List Bytes) × GitStore :=
  let entry_paths : Finset Bytes := (entries.map (fun e => e.path)).toFinset
  let r := ((paths ∩ entry_paths).sort (· ≤ ·)).foldl (statusStep E fs entries) ([], s)
  ((r.1, (paths \ entry_paths).sort (· ≤ ·), (entry_paths \ paths).sort (· ≤ ·)), r.2)

theorem statusStep_store (E : ExtLib) (fs : Bytes → Bytes) (entries : List IndexEntry)
    (acc : List Bytes × GitStore) (p : Bytes) :
    (statusStep E fs entries acc p).2 = (compress E ObjKind.blob.TYPE (fs p) acc.2).2 := by
  rw [statusStep]
  split
  · split
    · rfl
    · rfl
  · rfl

theorem compress_store_mono (E : ExtLib) (T d : Bytes) (s : GitStore)
    (kv : Bytes × Bytes) (h : kv ∈ s) : kv ∈ (compress E T d s).2 := by
  rw [compress]
  by_cases hh : storeHasId s (E.sha1hex (buildHead T d.length ++ d)) = true
  · rw [if_pos hh]
    exact h
  · rw [if_neg hh]
    exact List.mem_cons_of_mem _ h

theorem compress_store_has (E : ExtLib) (T d : Bytes) (s : GitStore) :
    storeHasId (compress E T d s).2 (E.sha1hex (buildHead T d.length ++ d)) = true := by
  rw [compress]
  by_cases hh : storeHasId s (E.sha1hex (buildHead T d.length ++ d)) = true
  · rw [if_pos hh]
    exact hh
  · rw [if_neg hh]
    exact storeHasId_cons_self _ _ _

theorem storeHasId_mono (s s2 : GitStore) (id : Bytes)
    (h : storeHasId s id = true) (hsub : ∀ kv ∈ s, kv ∈ s2) :
    storeHasId s2 id = true := by
  rw [storeHasId, List.any_eq_true] at h ⊢
  obtain ⟨kv, hkv, he⟩ := h
  exact ⟨kv, hsub kv hkv, he⟩

theorem statusFold_store_mono (E : ExtLib) (fs : Bytes → Bytes)
    (entries : List IndexEntry) (l : List Bytes) :
    ∀ (acc : List Bytes × GitStore) (kv : Bytes × Bytes), kv ∈ acc.2 →
      kv ∈ (l.foldl (statusStep E fs entries) acc).2 := by
  induction l with
  | nil => intro acc kv h; exact h
  | cons q t ih =>
    intro acc kv h
    rw [List.foldl_cons]
    refine ih _ kv ?_
    rw [statusStep_store]
    exact compress_store_mono _ _ _ _ _ h

theorem statusFold_has (E : ExtLib) (fs : Bytes → Bytes)
    (entries : List IndexEntry) (l : List Bytes) :
    ∀ (acc : List Bytes × GitStore) (p : Bytes), p ∈ l →
      storeHasId ((l.foldl (statusStep E fs entries) acc).2)
        (E.sha1hex (buildHead ObjKind.blob.TYPE (fs p).length ++ fs p)) = true := by
  induction l with
  | nil => intro acc p h; cases h
  | cons q t ih =>
    intro acc p h
    rw [List.foldl_cons]
    rcases List.mem_cons.mp h with h | h
    · subst h
      have hstep : storeHasId ((statusStep E fs entries acc p).2)
          (E.sha1hex (buildHead ObjKind.blob.TYPE (fs p).length ++ fs p)) = true := by
        rw [statusStep_store]
        exact compress_store_has _ _ _ _
      rw [storeHasId, List.any_eq_true] at hstep
      obtain ⟨kv, hkv, he⟩ := hstep
      have hmem := statusFold_store_mono E fs entries t _ kv hkv
      rw [storeHasId, List.any_eq_true]
      exact ⟨kv, hmem, he⟩
    · exact ih _ p h

/-- C10 — `get_status` is not read-only on the object store: for a path
`p` that is both a working-tree candidate and indexed, the comparison runs
`Blob.compress` on the working file, so after `get_status` the store
contains the id of `p`'s current content; nothing already stored is
removed or changed, and if that id was absent before, the store has
physically grown. -/
theorem status_writes_blob (E : ExtLib) (fs : Bytes → Bytes)
    (entries : List IndexEntry) (paths : Finset Bytes) (s : GitStore) (p : Bytes)
    (hp : p ∈ paths) (hip : p ∈ entries.map (fun e => e.path)) :
    storeHasId (getStatusCore E fs entries paths s).2
        (E.sha1hex (buildHead ObjKind.blob.TYPE (fs p).length ++ fs p)) = true ∧
      (∀ kv ∈ s, kv ∈ (getStatusCore E fs entries paths s).2) ∧
      (storeHasId s (E.sha1hex (buildHead ObjKind.blob.TYPE (fs p).length ++ fs p)) =
          false → (getStatusCore E fs entries paths s).2 ≠ s) := by
  have hmem : p ∈ (paths ∩ (entries.map (fun e => e.path)).toFinset).sort (· ≤ ·) := by
    rw [Finset.mem_sort, Finset.mem_inter]
    exact ⟨hp, List.mem_toFinset.mpr hip⟩
  have hstore : (getStatusCore E fs entries paths s).2 =
      (((paths ∩ (entries.map (fun e => e.path)).toFinset).sort (· ≤ ·)).foldl
        (statusStep E fs entries) ([], s)).2 := rfl
  refine ⟨?_, ?_, ?_⟩
  · rw [hstore]
    exact statusFold_has E fs entries _ ([], s) p hmem
  · intro kv hkv
    rw [hstore]
    exact statusFold_store_mono E fs entries _ ([], s) kv hkv
  · intro habsent hcon
    have h1 : storeHasId (getStatusCore E fs entries paths s).2
        (E.sha1hex (buildHead ObjKind.blob.TYPE (fs p).length ++ fs p)) = true := by
      rw [hstore]
      exact statusFold_has E fs entries _ ([], s) p hmem
    rw [hcon, habsent] at h1
    cases h1

/-- Witness for C10 at a concrete input. -/
theorem status_writes_blob_witness :
    storeHasId (getStatusCore extStub (fun _ => [7]) [wEntry] {[97]} []).2
        (extStub.sha1hex (buildHead ObjKind.blob.TYPE
          ((fun (_ : Bytes) => ([7] : Bytes)) [97]).length ++
          (fun (_ : Bytes) => ([7] : Bytes)) [97])) = true ∧
      (∀ kv ∈ ([] : GitStore),
        kv ∈ (getStatusCore extStub (fun _ => [7]) [wEntry] {[97]} []).2) ∧
      (storeHasId [] (extStub.sha1hex (buildHead ObjKind.blob.TYPE
          ((fun (_ : Bytes) => ([7] : Bytes)) [97]).length ++
          (fun (_ : Bytes) => ([7] : Bytes)) [97])) = false →
        (getStatusCore extStub (fun _ => [7]) [wEntry] {[97]} []).2 ≠ []) :=
  status_writes_blob extStub (fun _ => [7]) [wEntry] {[97]} [] [97]
    (by decide) (by decide)

end StatusEffects
